import Mathlib

/-!
Greedy (shortest-seek-first) I/O scheduler.

A shallow embedding of `greedy-iosched.c`.  The two intrusive kernel lists
`upstream_queue` and `downstream_queue` become Lean lists of requests (front of
the list = `queue.next`), `sector_t` becomes `Nat` reduced modulo `2 ^ 64`
wherever the C code subtracts, and every elevator callback becomes a pure
function on `greedy_data`.
-/

namespace Greedy

/-- Number of values of the unsigned type `sector_t` (a 64-bit sector number). -/
def SECTOR_MOD : Nat := 18446744073709551616

/-- Unsigned `sector_t` subtraction `a - b`, wrapping modulo `2 ^ 64`
(both operands are sector numbers, so below `SECTOR_MOD`). -/
def sector_sub (a b : Nat) : Nat := (a + SECTOR_MOD - b) % SECTOR_MOD

/-- A `struct request` as seen by the scheduler: `id` stands for the address of
the request (its identity), `pos` for `blk_rq_pos(rq)`. -/
structure Request where
  id : Nat
  pos : Nat
  deriving DecidableEq, Repr

/-- The scheduler's private data, `struct greedy_data`. -/
structure greedy_data where
  upstream_queue : List Request
  downstream_queue : List Request
  head_position : Nat
  deriving DecidableEq, Repr

/-- The part of `greedy_init_queue` that initialises the scheduler data: two
empty lists and `head_position = 0`. -/
def greedy_init_queue : greedy_data :=
  { upstream_queue := [], downstream_queue := [], head_position := 0 }

/-- The kernel's `list_del_init` for a request given by address: the node is
unlinked from whichever list holds it; a node that is in no list is left alone. -/
def list_del_init (rq : Request) (l : List Request) : List Request :=
  l.filter (fun x => decide (x.id ≠ rq.id))

/-- The callback `greedy_merged_requests(q, rq, next)`: `next` is unlinked. -/
def greedy_merged_requests (gd : greedy_data) (_rq next : Request) : greedy_data :=
  { gd with
    upstream_queue := list_del_init next gd.upstream_queue,
    downstream_queue := list_del_init next gd.downstream_queue }

/-- The callback `greedy_dispatch`.  The result pairs the request handed to
`elv_dispatch_sort` (`none` when the C function returns `0`) with the new
scheduler data.  The chosen request is the first node of its list, so
unlinking it leaves the tail of that list. -/
def greedy_dispatch (gd : greedy_data) : Option Request × greedy_data :=
  match gd.upstream_queue.head?, gd.downstream_queue.head? with
  | none, none => (none, gd)
  | some rq_u, none =>
      (some rq_u, { gd with upstream_queue := gd.upstream_queue.tail,
                            head_position := rq_u.pos })
  | none, some rq_d =>
      (some rq_d, { gd with downstream_queue := gd.downstream_queue.tail,
                            head_position := rq_d.pos })
  | some rq_u, some rq_d =>
      if sector_sub gd.head_position rq_d.pos < sector_sub rq_u.pos gd.head_position then
        (some rq_d, { gd with downstream_queue := gd.downstream_queue.tail,
                              head_position := rq_d.pos })
      else
        (some rq_u, { gd with upstream_queue := gd.upstream_queue.tail,
                              head_position := rq_u.pos })

/-- The loop `list_for_each (iter, queue) if (stop iter) break;` followed by
`list_add_tail (rq, iter)`: `rq` is linked in just before the first node at
which the scan stops, or at the tail when the scan runs to the end. -/
def list_add_before (stop : Request → Bool) (rq : Request) : List Request → List Request
  | [] => [rq]
  | x :: xs => if stop x then rq :: x :: xs else x :: list_add_before stop rq xs

/-- The callback `greedy_add_request`, for a request that is in neither queue
(`rq.id` is not the address of a queued request), as the elevator interface
hands it over.  For a request that is already linked the C code would link
its node to itself, which a list cannot show; every statement about this
function below therefore assumes the request is not queued. -/
def greedy_add_request (gd : greedy_data) (rq : Request) : greedy_data :=
  let hp := rq.pos
  if hp > gd.head_position then
    let stop := fun (it : Request) =>
      decide (sector_sub hp gd.head_position < sector_sub it.pos gd.head_position)
    { gd with upstream_queue := list_add_before stop rq gd.upstream_queue }
  else
    let stop := fun (it : Request) =>
      decide (sector_sub gd.head_position hp < sector_sub gd.head_position it.pos)
    { gd with downstream_queue := list_add_before stop rq gd.downstream_queue }

/-- One call made by the host. -/
inductive Op where
  | add (rq : Request)
  | dispatch
  | merged (rq next : Request)
  deriving DecidableEq, Repr

/-- The scheduler data after one call. -/
def step (gd : greedy_data) : Op → greedy_data
  | .add rq => greedy_add_request gd rq
  | .dispatch => (greedy_dispatch gd).2
  | .merged rq next => greedy_merged_requests gd rq next

/-- The scheduler data after a sequence of calls, first call first. -/
def run (gd : greedy_data) (ops : List Op) : greedy_data :=
  ops.foldl step gd

/-- Every request linked in one of the two lists, upstream list first. -/
def queued (gd : greedy_data) : List Request :=
  gd.upstream_queue ++ gd.downstream_queue

/-- A call the host may make: `add` is given a request that is in neither list
and whose position is a `sector_t`. -/
def okOp (gd : greedy_data) : Op → Prop
  | .add rq => rq.pos < SECTOR_MOD ∧ rq.id ∉ (queued gd).map Request.id
  | .dispatch => True
  | .merged _ _ => True

instance (gd : greedy_data) (op : Op) : Decidable (okOp gd op) := by
  cases op <;> unfold okOp <;> infer_instance

/-- A sequence of calls each of which the host may make when its turn comes. -/
def okOps : greedy_data → List Op → Prop
  | _, [] => True
  | gd, op :: ops => okOp gd op ∧ okOps (step gd op) ops

instance okOpsDecidable : (gd : greedy_data) → (ops : List Op) → Decidable (okOps gd ops)
  | _, [] => by unfold okOps; infer_instance
  | gd, op :: ops => by
      unfold okOps
      exact @instDecidableAnd _ _ _ (okOpsDecidable (step gd op) ops)

/-- Distance `|a - b|` between two sector numbers. -/
def seek (a b : Nat) : Nat := if a ≤ b then b - a else a - b

/-- Ordering facts that hold of the scheduler data between calls: the head and
every upstream request are sector numbers, upstream requests lie at or above
the head in ascending position, downstream requests lie at or below the head
in descending position. -/
structure Ordered (gd : greedy_data) : Prop where
  head_lt : gd.head_position < SECTOR_MOD
  up_ge : ∀ r ∈ gd.upstream_queue, gd.head_position ≤ r.pos ∧ r.pos < SECTOR_MOD
  down_le : ∀ r ∈ gd.downstream_queue, r.pos ≤ gd.head_position
  up_sorted : gd.upstream_queue.Pairwise (fun a b => a.pos ≤ b.pos)
  down_sorted : gd.downstream_queue.Pairwise (fun a b => b.pos ≤ a.pos)

/-- No request is linked twice: the addresses of the queued requests are distinct. -/
def Exclusive (gd : greedy_data) : Prop :=
  ((queued gd).map Request.id).Nodup

/-- The entries the specification's scan passes over: the leading entries whose
distance from the head is not strictly greater than that of the new request. -/
def scan_passed (head : Nat) (rq : Request) (q : List Request) : List Request :=
  q.takeWhile (fun e => decide (seek e.pos head ≤ seek rq.pos head))

/-- The entries from the first one whose distance from the head is strictly
greater than that of the new request up to the tail. -/
def scan_rest (head : Nat) (rq : Request) (q : List Request) : List Request :=
  q.dropWhile (fun e => decide (seek e.pos head ≤ seek rq.pos head))

/-- Insertion as the specification words it: the new request goes immediately
before the first entry whose distance from the head is strictly greater than
its own, or at the tail when there is no such entry. -/
def insert_by_distance (head : Nat) (rq : Request) (q : List Request) : List Request :=
  scan_passed head rq q ++ rq :: scan_rest head rq q

/-- Bookkeeping that is not in the C code: `g i` is the head position that was
current when the request with address `i` was last handed to
`greedy_add_request`, and `stamp` updates it across one call. -/
def stamp (gd : greedy_data) (g : Nat → Option Nat) : Op → Nat → Option Nat
  | .add rq => fun i => if i = rq.id then some gd.head_position else g i
  | .dispatch => g
  | .merged _ _ => g

/-- The insertion-time head positions recorded along a sequence of calls. -/
def stamps : greedy_data → (Nat → Option Nat) → List Op → Nat → Option Nat
  | _, g, [] => g
  | gd, g, op :: ops => stamps (step gd op) (stamp gd g op) ops

/-- A list is non-decreasing in the distance of each entry from the head
position recorded at that entry's own insertion. -/
def SortedByInsertSeek (g : Nat → Option Nat) (l : List Request) : Prop :=
  l.Pairwise (fun a b => ∀ ha hb, g a.id = some ha → g b.id = some hb →
    seek a.pos ha ≤ seek b.pos hb)

/-- Every queued request has a recorded insertion head; it lies strictly below
the position of an upstream request and at or above that of a downstream one. -/
structure Stamped (gd : greedy_data) (g : Nat → Option Nat) : Prop where
  up : ∀ r ∈ gd.upstream_queue, ∃ h, g r.id = some h ∧ h < r.pos
  down : ∀ r ∈ gd.downstream_queue, ∃ h, g r.id = some h ∧ r.pos ≤ h

/-- How `greedy_exit_queue` ends: it reaches `kfree` and returns, or one of its
two `BUG_ON` assertions fires. -/
inductive exit_outcome where
  | freed
  | bug
  deriving DecidableEq, Repr

/-- The callback `greedy_exit_queue`: `BUG_ON` on a non-empty upstream list,
then `BUG_ON` on a non-empty downstream list, then `kfree`. -/
def greedy_exit_queue (gd : greedy_data) : exit_outcome :=
  if !gd.upstream_queue.isEmpty then .bug
  else if !gd.downstream_queue.isEmpty then .bug
  else .freed

/-- The results of `n` consecutive calls of `greedy_dispatch`, first call first,
with the scheduler data left after the last one. -/
def dispatch_n : Nat → greedy_data → List (Option Request) × greedy_data
  | 0, gd => ([], gd)
  | n + 1, gd =>
    ((greedy_dispatch gd).1 :: (dispatch_n n (greedy_dispatch gd).2).1,
     (dispatch_n n (greedy_dispatch gd).2).2)

/-- Request `A` is still queued in the given state and after every one of the
following calls. -/
def stays_queued (A : Request) : greedy_data → List Op → Prop
  | gd, [] => A ∈ queued gd
  | gd, op :: ops => A ∈ queued gd ∧ stays_queued A (step gd op) ops

instance stays_queued_decidable (A : Request) :
    (gd : greedy_data) → (ops : List Op) → Decidable (stays_queued A gd ops)
  | _, [] => by unfold stays_queued; infer_instance
  | gd, op :: ops => by
      unfold stays_queued
      exact @instDecidableAnd _ _ _ (stays_queued_decidable A (step gd op) ops)

/-- Request `A` will be dispatched before request `B`: it stands in front of `B`
in the same queue, or it is upstream while `B` is downstream. -/
def ahead_of (A B : Request) (gd : greedy_data) : Prop :=
  List.Sublist [A, B] gd.upstream_queue ∨ List.Sublist [A, B] gd.downstream_queue ∨
    (A ∈ gd.upstream_queue ∧ B ∈ gd.downstream_queue)

/-! ## The same callbacks on the linked representation

The list view above cannot say what `rq->queuelist.prev` is for a request that
is in no queue.  The definitions below keep the `next` and `prev` pointers of
every `struct list_head` and follow the kernel's list primitives. -/

/-- A `struct list_head`: one of the two queue heads of `struct greedy_data`, or
the `queuelist` member of a request. -/
inductive Node where
  | upstream_queue
  | downstream_queue
  | queuelist (rq : Request)
  deriving DecidableEq, Repr

/-- The pointers of all list heads together with `head_position`. -/
structure Mem where
  next : Node → Node
  prev : Node → Node
  head_position : Nat

/-- The assignment `n->next = v`. -/
def set_next (m : Mem) (n v : Node) : Mem :=
  { m with next := fun x => if x = n then v else m.next x }

/-- The assignment `n->prev = v`. -/
def set_prev (m : Mem) (n v : Node) : Mem :=
  { m with prev := fun x => if x = n then v else m.prev x }

/-- The kernel's `INIT_LIST_HEAD`: `list->next = list; list->prev = list`. -/
def INIT_LIST_HEAD (m : Mem) (list : Node) : Mem :=
  set_prev (set_next m list list) list list

/-- The kernel's `list_empty`: `head->next == head`. -/
def list_empty (m : Mem) (head : Node) : Bool :=
  decide (m.next head = head)

/-- The kernel's `list_add_tail (new, head)`, that is `__list_add (new, head->prev,
head)`: `next->prev = new; new->next = next; new->prev = prev; prev->next = new`. -/
def list_add_tail (m : Mem) (new head : Node) : Mem :=
  set_next (set_prev (set_next (set_prev m head new) new head) new (m.prev head))
    (m.prev head) new

/-- The kernel's `list_del_init (entry)` on pointers: `__list_del (entry->prev,
entry->next)`, that is `next->prev = prev; prev->next = next`, followed by
`INIT_LIST_HEAD (entry)`. -/
def Links.list_del_init (m : Mem) (entry : Node) : Mem :=
  INIT_LIST_HEAD
    (set_next (set_prev m (m.next entry) (m.prev entry)) (m.prev entry) (m.next entry))
    entry

/-- The callback `greedy_former_request`: none when `rq->queuelist.prev` is one of
the two queue heads, otherwise the request that contains that node. -/
def greedy_former_request (m : Mem) (rq : Request) : Option Request :=
  match m.prev (.queuelist rq) with
  | .upstream_queue => none
  | .downstream_queue => none
  | .queuelist r => some r

/-- The callback `greedy_latter_request`: none when `rq->queuelist.next` is one of
the two queue heads, otherwise the request that contains that node. -/
def greedy_latter_request (m : Mem) (rq : Request) : Option Request :=
  match m.next (.queuelist rq) with
  | .upstream_queue => none
  | .downstream_queue => none
  | .queuelist r => some r

/-- The callback `greedy_merged_requests` on pointers. -/
def Links.greedy_merged_requests (m : Mem) (_rq next : Request) : Mem :=
  Links.list_del_init m (.queuelist next)

/-- The loop `list_for_each (iter, head) if (stop (list_entry (iter))) break;` run
from `iter`: the node at which it ends.  It gives nothing when the steps run
out or when `iter` is a queue head other than `head`, which is no request. -/
def Links.list_for_each (m : Mem) (head : Node) (stop : Request → Bool) :
    Nat → Node → Option Node
  | 0, _ => none
  | fuel + 1, iter =>
    if iter = head then some iter
    else match iter with
      | .queuelist r =>
        if stop r then some iter
        else Links.list_for_each m head stop fuel (m.next iter)
      | _ => none

/-- The callback `greedy_add_request` on pointers, with a bound on the steps of
its scan. -/
def Links.greedy_add_request (fuel : Nat) (m : Mem) (rq : Request) : Option Mem :=
  let hp := rq.pos
  if hp > m.head_position then
    let stop := fun (it : Request) =>
      decide (sector_sub hp m.head_position < sector_sub it.pos m.head_position)
    match Links.list_for_each m .upstream_queue stop fuel (m.next .upstream_queue) with
    | some iter => some (list_add_tail m (.queuelist rq) iter)
    | none => none
  else
    let stop := fun (it : Request) =>
      decide (sector_sub m.head_position hp < sector_sub m.head_position it.pos)
    match Links.list_for_each m .downstream_queue stop fuel (m.next .downstream_queue) with
    | some iter => some (list_add_tail m (.queuelist rq) iter)
    | none => none

/-- The kernel's `list_entry (head->next, struct request, queuelist)` for a list
that is not empty; nothing when the list is empty or its first node is no
request. -/
def first_entry (m : Mem) (head : Node) : Option Request :=
  if list_empty m head then none
  else match m.next head with
    | .queuelist r => some r
    | _ => none

/-- The callback `greedy_dispatch` on pointers.  The request is unlinked and the
head position set; `elv_dispatch_sort` then links the request into the
dispatch list of the host, which is not part of this state. -/
def Links.greedy_dispatch (m : Mem) : Option Request × Mem :=
  match first_entry m .upstream_queue, first_entry m .downstream_queue with
  | none, none => (none, m)
  | some rq_u, none =>
      (some rq_u, { Links.list_del_init m (.queuelist rq_u) with head_position := rq_u.pos })
  | none, some rq_d =>
      (some rq_d, { Links.list_del_init m (.queuelist rq_d) with head_position := rq_d.pos })
  | some rq_u, some rq_d =>
      if sector_sub m.head_position rq_d.pos < sector_sub rq_u.pos m.head_position then
        (some rq_d, { Links.list_del_init m (.queuelist rq_d) with head_position := rq_d.pos })
      else
        (some rq_u, { Links.list_del_init m (.queuelist rq_u) with head_position := rq_u.pos })

/-- The part of `greedy_init_queue` that initialises the scheduler data, applied
to the memory the host hands over. -/
def Links.greedy_init_queue (m : Mem) : Mem :=
  { INIT_LIST_HEAD (INIT_LIST_HEAD m .upstream_queue) .downstream_queue with
    head_position := 0 }

/-- Memory in which every request node is initialised as `blk_rq_init` leaves it
(`INIT_LIST_HEAD (&rq->queuelist)`). -/
def fresh_mem : Mem :=
  { next := fun x => x, prev := fun x => x, head_position := 0 }

/-- One call made by the host, on pointers. -/
def Links.step (fuel : Nat) (m : Mem) : Op → Option Mem
  | .add rq => Links.greedy_add_request fuel m rq
  | .dispatch => some (Links.greedy_dispatch m).2
  | .merged rq next => some (Links.greedy_merged_requests m rq next)

/-- A sequence of calls on pointers, first call first. -/
def Links.run (fuel : Nat) : Mem → List Op → Option Mem
  | m, [] => some m
  | m, op :: ops =>
    match Links.step fuel m op with
    | some m1 => Links.run fuel m1 ops
    | none => none

/-- From node `a` the `next` pointers lead through the nodes of the requests of
`l`, in order, to `h`, and the `prev` pointers lead back. -/
def chain (m : Mem) : Node → List Request → Node → Prop
  | a, [], h => m.next a = h ∧ m.prev h = a
  | a, r :: rs, h =>
    m.next a = .queuelist r ∧ m.prev (.queuelist r) = a ∧ chain m (.queuelist r) rs h

instance chain_decidable (m : Mem) :
    (a : Node) → (l : List Request) → (h : Node) → Decidable (chain m a l h)
  | _, [], _ => by unfold chain; infer_instance
  | a, r :: rs, h => by
      unfold chain
      exact @instDecidableAnd _ _ _
        (@instDecidableAnd _ _ _ (chain_decidable m (.queuelist r) rs h))

/-- The pointers spell the two queues of the list view and the head positions
agree. -/
structure Linked (m : Mem) (gd : greedy_data) : Prop where
  up : chain m .upstream_queue gd.upstream_queue .upstream_queue
  down : chain m .downstream_queue gd.downstream_queue .downstream_queue
  head : m.head_position = gd.head_position

instance (m : Mem) (gd : greedy_data) : Decidable (Linked m gd) :=
  decidable_of_iff
    (chain m .upstream_queue gd.upstream_queue .upstream_queue ∧
      chain m .downstream_queue gd.downstream_queue .downstream_queue ∧
      m.head_position = gd.head_position)
    ⟨fun h => ⟨h.1, h.2.1, h.2.2⟩, fun h => ⟨h.up, h.down, h.head⟩⟩

/-- The node at the end of the requests of `l` when they are entered from `a`. -/
def last_node (a : Node) : List Request → Node
  | [] => a
  | r :: rs => last_node (.queuelist r) rs

/-- The pointers reached from `create ()` on fresh memory by a sequence of calls;
every scan may take one step more than there are calls. -/
def reached (ops : List Op) : Option Mem :=
  Links.run (ops.length + 1) (Links.greedy_init_queue fresh_mem) ops

/-- The first node of the requests of `l`, or `h` when there is none. -/
def first_node (l : List Request) (h : Node) : Node :=
  match l with
  | [] => h
  | r :: _ => .queuelist r

/-- Every request that is in no queue has a node that points to itself, as
`INIT_LIST_HEAD` and `list_del_init` leave it. -/
def Loose (m : Mem) (gd : greedy_data) : Prop :=
  ∀ r, r ∉ queued gd →
    m.next (.queuelist r) = .queuelist r ∧ m.prev (.queuelist r) = .queuelist r

/-- A merge notification names its absorbed request by address; the request
handed over is the queued one with that address, or its address is in no
queue. -/
def okLink (gd : greedy_data) : Op → Prop
  | .merged _ next => next ∈ queued gd ∨ next.id ∉ (queued gd).map Request.id
  | _ => True

/-- Every merge notification of a sequence of calls hands over its request as
`okLink` says. -/
def okLinks : greedy_data → List Op → Prop
  | _, [] => True
  | gd, op :: ops => okLink gd op ∧ okLinks (step gd op) ops

/-- The linked representation `m` stands for the list view `gd`: the pointers
spell the two queues, requests in no queue point to themselves, and no request
is linked twice. -/
structure Refines (m : Mem) (gd : greedy_data) : Prop where
  linked : Linked m gd
  loose : Loose m gd
  excl : Exclusive gd

/-! ## Basic facts -/

theorem sector_sub_eq (a b : Nat) (hb : b ≤ a) (ha : a < SECTOR_MOD) :
    sector_sub a b = a - b := by
  unfold sector_sub
  have h : a + SECTOR_MOD - b = (a - b) + SECTOR_MOD := by omega
  rw [h, Nat.add_mod_right]
  exact Nat.mod_eq_of_lt (by omega)

theorem mem_list_add_before (stop : Request → Bool) (rq x : Request) (l : List Request) :
    x ∈ list_add_before stop rq l ↔ x = rq ∨ x ∈ l := by
  induction l with
  | nil => simp [list_add_before]
  | cons y ys ih =>
    unfold list_add_before
    by_cases hs : stop y = true
    · simp [hs]
    · simp only [hs, Bool.false_eq_true, if_false, List.mem_cons, ih]
      tauto

theorem list_add_before_split (stop : Request → Bool) (rq : Request) (l : List Request) :
    list_add_before stop rq l
      = l.takeWhile (fun x => !stop x) ++ rq :: l.dropWhile (fun x => !stop x) := by
  induction l with
  | nil => simp [list_add_before]
  | cons y ys ih =>
    unfold list_add_before
    by_cases hs : stop y = true
    · simp [hs, List.takeWhile, List.dropWhile]
    · simp only [Bool.not_eq_true] at hs
      simp [hs, List.takeWhile, List.dropWhile, ih]

theorem pairwise_list_add_before (R : Request → Request → Prop) (stop : Request → Bool)
    (rq : Request) (l : List Request) (hl : l.Pairwise R)
    (h1 : ∀ x ∈ l, stop x = false → R x rq)
    (h2 : ∀ x ∈ l, stop x = true → R rq x)
    (h3 : ∀ x ∈ l, ∀ y ∈ l, R rq x → R x y → R rq y) :
    (list_add_before stop rq l).Pairwise R := by
  induction l with
  | nil => simp [list_add_before]
  | cons y ys ih =>
    have hy := List.pairwise_cons.mp hl
    unfold list_add_before
    by_cases hs : stop y = true
    · simp only [hs, if_true]
      refine List.pairwise_cons.mpr ⟨?_, hl⟩
      intro z hz
      have hry : R rq y := h2 y (List.mem_cons_self _ _) hs
      rcases List.mem_cons.mp hz with hz | hz
      · simpa [hz] using hry
      · exact h3 y (List.mem_cons_self _ _) z (List.mem_cons_of_mem _ hz) hry (hy.1 z hz)
    · simp only [Bool.not_eq_true] at hs
      simp only [hs, Bool.false_eq_true, if_false]
      refine List.pairwise_cons.mpr ⟨?_, ?_⟩
      · intro z hz
        rcases (mem_list_add_before stop rq z ys).mp hz with hz | hz
        · simpa [hz] using h1 y (List.mem_cons_self _ _) hs
        · exact hy.1 z hz
      · exact ih hy.2 (fun x hx => h1 x (List.mem_cons_of_mem _ hx))
          (fun x hx => h2 x (List.mem_cons_of_mem _ hx))
          (fun x hx z hz => h3 x (List.mem_cons_of_mem _ hx) z (List.mem_cons_of_mem _ hz))

theorem add_head (gd : greedy_data) (rq : Request) :
    (greedy_add_request gd rq).head_position = gd.head_position := by
  unfold greedy_add_request
  dsimp only
  split <;> rfl

theorem add_up (gd : greedy_data) (rq : Request) (h : gd.head_position < rq.pos) :
    greedy_add_request gd rq =
      { gd with upstream_queue :=
          list_add_before (fun it => decide (sector_sub rq.pos gd.head_position
            < sector_sub it.pos gd.head_position)) rq gd.upstream_queue } := by
  unfold greedy_add_request
  simp [h]

theorem add_down (gd : greedy_data) (rq : Request) (h : rq.pos ≤ gd.head_position) :
    greedy_add_request gd rq =
      { gd with downstream_queue :=
          list_add_before (fun it => decide (sector_sub gd.head_position rq.pos
            < sector_sub gd.head_position it.pos)) rq gd.downstream_queue } := by
  unfold greedy_add_request
  simp [Nat.not_lt.mpr h]

theorem stop_up_iff (head hp x : Nat) (hx : head ≤ x) (hxm : x < SECTOR_MOD)
    (hh : head ≤ hp) (hpm : hp < SECTOR_MOD) :
    sector_sub hp head < sector_sub x head ↔ hp < x := by
  rw [sector_sub_eq hp head hh hpm, sector_sub_eq x head hx hxm]
  omega

theorem stop_down_iff (head hp x : Nat) (hx : x ≤ head) (hh : hp ≤ head)
    (hm : head < SECTOR_MOD) :
    sector_sub head hp < sector_sub head x ↔ x < hp := by
  rw [sector_sub_eq head hp hh hm, sector_sub_eq head x hx hm]
  omega

/-! ## The ordering facts are kept by every call -/

theorem ordered_init (h : Nat) (hh : h < SECTOR_MOD) :
    Ordered { upstream_queue := [], downstream_queue := [], head_position := h } :=
  { head_lt := hh
    up_ge := by intro r hr; cases hr
    down_le := by intro r hr; cases hr
    up_sorted := List.Pairwise.nil
    down_sorted := List.Pairwise.nil }

theorem ordered_add (gd : greedy_data) (rq : Request) (ho : Ordered gd)
    (hrq : rq.pos < SECTOR_MOD) : Ordered (greedy_add_request gd rq) := by
  by_cases h : gd.head_position < rq.pos
  · rw [add_up gd rq h]
    refine { head_lt := ho.head_lt, up_ge := ?_, down_le := ho.down_le,
             up_sorted := ?_, down_sorted := ho.down_sorted }
    · intro r hr
      rcases (mem_list_add_before _ rq r _).mp hr with hr | hr
      · subst hr; exact ⟨Nat.le_of_lt h, hrq⟩
      · exact ho.up_ge r hr
    · refine pairwise_list_add_before _ _ rq _ ho.up_sorted ?_ ?_ ?_
      · intro x hx hs
        have hxx := ho.up_ge x hx
        have := (stop_up_iff gd.head_position rq.pos x.pos hxx.1 hxx.2 (Nat.le_of_lt h) hrq)
        simp only [decide_eq_false_iff_not] at hs
        omega
      · intro x hx hs
        have hxx := ho.up_ge x hx
        have := (stop_up_iff gd.head_position rq.pos x.pos hxx.1 hxx.2 (Nat.le_of_lt h) hrq)
        simp only [decide_eq_true_eq] at hs
        omega
      · intro x _ y _ h1 h2
        exact Nat.le_trans h1 h2
  · have h' : rq.pos ≤ gd.head_position := Nat.not_lt.mp h
    rw [add_down gd rq h']
    refine { head_lt := ho.head_lt, up_ge := ho.up_ge, down_le := ?_,
             up_sorted := ho.up_sorted, down_sorted := ?_ }
    · intro r hr
      rcases (mem_list_add_before _ rq r _).mp hr with hr | hr
      · subst hr; exact h'
      · exact ho.down_le r hr
    · refine pairwise_list_add_before _ _ rq _ ho.down_sorted ?_ ?_ ?_
      · intro x hx hs
        have hxx := ho.down_le x hx
        have := (stop_down_iff gd.head_position rq.pos x.pos hxx h' ho.head_lt)
        simp only [decide_eq_false_iff_not] at hs
        omega
      · intro x hx hs
        have hxx := ho.down_le x hx
        have := (stop_down_iff gd.head_position rq.pos x.pos hxx h' ho.head_lt)
        simp only [decide_eq_true_eq] at hs
        omega
      · intro x _ y _ h1 h2
        exact Nat.le_trans h2 h1

theorem ordered_merged (gd : greedy_data) (rq next : Request) (ho : Ordered gd) :
    Ordered (greedy_merged_requests gd rq next) :=
  { head_lt := ho.head_lt
    up_ge := fun r hr => ho.up_ge r (List.mem_of_mem_filter hr)
    down_le := fun r hr => ho.down_le r (List.mem_of_mem_filter hr)
    up_sorted := ho.up_sorted.sublist (List.filter_sublist _)
    down_sorted := ho.down_sorted.sublist (List.filter_sublist _) }

/-! ## Dispatch, case by case -/

theorem list_nil_or_cons (l : List Request) : l = [] ∨ ∃ x xs, l = x :: xs := by
  cases l with
  | nil => exact Or.inl rfl
  | cons x xs => exact Or.inr ⟨x, xs, rfl⟩

theorem dispatch_empty (gd : greedy_data) (hu : gd.upstream_queue = [])
    (hd : gd.downstream_queue = []) : greedy_dispatch gd = (none, gd) := by
  simp [greedy_dispatch, hu, hd]

theorem dispatch_up_only (gd : greedy_data) (u : Request) (us : List Request)
    (hu : gd.upstream_queue = u :: us) (hd : gd.downstream_queue = []) :
    greedy_dispatch gd
      = (some u, { gd with upstream_queue := us, head_position := u.pos }) := by
  simp [greedy_dispatch, hu, hd]

theorem dispatch_down_only (gd : greedy_data) (d : Request) (ds : List Request)
    (hu : gd.upstream_queue = []) (hd : gd.downstream_queue = d :: ds) :
    greedy_dispatch gd
      = (some d, { gd with downstream_queue := ds, head_position := d.pos }) := by
  simp [greedy_dispatch, hu, hd]

theorem dispatch_both_down (gd : greedy_data) (u d : Request) (us ds : List Request)
    (hu : gd.upstream_queue = u :: us) (hd : gd.downstream_queue = d :: ds)
    (hlt : sector_sub gd.head_position d.pos < sector_sub u.pos gd.head_position) :
    greedy_dispatch gd
      = (some d, { gd with downstream_queue := ds, head_position := d.pos }) := by
  simp [greedy_dispatch, hu, hd, hlt]

theorem dispatch_both_up (gd : greedy_data) (u d : Request) (us ds : List Request)
    (hu : gd.upstream_queue = u :: us) (hd : gd.downstream_queue = d :: ds)
    (hge : ¬ sector_sub gd.head_position d.pos < sector_sub u.pos gd.head_position) :
    greedy_dispatch gd
      = (some u, { gd with upstream_queue := us, head_position := u.pos }) := by
  simp [greedy_dispatch, hu, hd, hge]

/-- The shapes a dispatch can take: nothing queued, or the front of the upstream
list is taken, or the front of the downstream list is taken. -/
theorem dispatch_cases (gd : greedy_data) :
    (gd.upstream_queue = [] ∧ gd.downstream_queue = [] ∧ greedy_dispatch gd = (none, gd))
    ∨ (∃ u us, gd.upstream_queue = u :: us ∧
        (gd.downstream_queue = [] ∨ ∃ d ds, gd.downstream_queue = d :: ds ∧
          ¬ sector_sub gd.head_position d.pos < sector_sub u.pos gd.head_position) ∧
        greedy_dispatch gd
          = (some u, { gd with upstream_queue := us, head_position := u.pos }))
    ∨ (∃ d ds, gd.downstream_queue = d :: ds ∧
        (gd.upstream_queue = [] ∨ ∃ u us, gd.upstream_queue = u :: us ∧
          sector_sub gd.head_position d.pos < sector_sub u.pos gd.head_position) ∧
        greedy_dispatch gd
          = (some d, { gd with downstream_queue := ds, head_position := d.pos })) := by
  rcases list_nil_or_cons gd.upstream_queue with hu | ⟨u, us, hu⟩
  · rcases list_nil_or_cons gd.downstream_queue with hd | ⟨d, ds, hd⟩
    · exact Or.inl ⟨hu, hd, dispatch_empty gd hu hd⟩
    · exact Or.inr (Or.inr ⟨d, ds, hd, Or.inl hu, dispatch_down_only gd d ds hu hd⟩)
  · rcases list_nil_or_cons gd.downstream_queue with hd | ⟨d, ds, hd⟩
    · exact Or.inr (Or.inl ⟨u, us, hu, Or.inl hd, dispatch_up_only gd u us hu hd⟩)
    · by_cases hlt : sector_sub gd.head_position d.pos < sector_sub u.pos gd.head_position
      · exact Or.inr (Or.inr ⟨d, ds, hd, Or.inr ⟨u, us, hu, hlt⟩,
          dispatch_both_down gd u d us ds hu hd hlt⟩)
      · exact Or.inr (Or.inl ⟨u, us, hu, Or.inr ⟨d, ds, hd, hlt⟩,
          dispatch_both_up gd u d us ds hu hd hlt⟩)

theorem ordered_dispatch (gd : greedy_data) (ho : Ordered gd) :
    Ordered (greedy_dispatch gd).2 := by
  rcases dispatch_cases gd with ⟨_, _, h⟩ | ⟨u, us, hu, _, h⟩ | ⟨d, ds, hd, _, h⟩
  · rw [h]; exact ho
  · rw [h]
    have hs := ho.up_sorted
    rw [hu] at hs
    have hs' := List.pairwise_cons.mp hs
    have hmem : u ∈ gd.upstream_queue := by rw [hu]; exact List.mem_cons_self _ _
    have hub := ho.up_ge u hmem
    refine { head_lt := hub.2, up_ge := ?_, down_le := ?_,
             up_sorted := hs'.2, down_sorted := ho.down_sorted }
    · intro r hr
      have hr' : r ∈ gd.upstream_queue := by rw [hu]; exact List.mem_cons_of_mem _ hr
      exact ⟨hs'.1 r hr, (ho.up_ge r hr').2⟩
    · intro r hr
      exact Nat.le_trans (ho.down_le r hr) hub.1
  · rw [h]
    have hs := ho.down_sorted
    rw [hd] at hs
    have hs' := List.pairwise_cons.mp hs
    have hmem : d ∈ gd.downstream_queue := by rw [hd]; exact List.mem_cons_self _ _
    have hdb := ho.down_le d hmem
    refine { head_lt := Nat.lt_of_le_of_lt hdb ho.head_lt, up_ge := ?_, down_le := ?_,
             up_sorted := ho.up_sorted, down_sorted := hs'.2 }
    · intro r hr
      exact ⟨Nat.le_trans hdb (ho.up_ge r hr).1, (ho.up_ge r hr).2⟩
    · intro r hr
      exact hs'.1 r hr

theorem ordered_step (gd : greedy_data) (op : Op) (ho : Ordered gd) (hok : okOp gd op) :
    Ordered (step gd op) := by
  cases op with
  | add rq => exact ordered_add gd rq ho hok.1
  | dispatch => exact ordered_dispatch gd ho
  | merged rq next => exact ordered_merged gd rq next ho

theorem ordered_run (ops : List Op) (gd : greedy_data) (ho : Ordered gd)
    (hok : okOps gd ops) : Ordered (run gd ops) := by
  induction ops generalizing gd with
  | nil => exact ho
  | cons op ops ih =>
    exact ih (step gd op) (ordered_step gd op ho hok.1) hok.2

/-! ## No request is linked twice -/

theorem list_add_before_perm (stop : Request → Bool) (rq : Request) (l : List Request) :
    (list_add_before stop rq l).Perm (rq :: l) := by
  rw [list_add_before_split]
  have h := @List.perm_middle _ rq (l.takeWhile (fun x => !stop x))
    (l.dropWhile (fun x => !stop x))
  rwa [List.takeWhile_append_dropWhile] at h

theorem queued_add_perm (gd : greedy_data) (rq : Request) :
    (queued (greedy_add_request gd rq)).Perm (rq :: queued gd) := by
  by_cases h : gd.head_position < rq.pos
  · rw [add_up gd rq h]
    exact (list_add_before_perm _ rq gd.upstream_queue).append_right gd.downstream_queue
  · rw [add_down gd rq (Nat.not_lt.mp h)]
    unfold queued
    have h1 := (list_add_before_perm
      (fun it => decide (sector_sub gd.head_position rq.pos
        < sector_sub gd.head_position it.pos)) rq gd.downstream_queue).append_left
      gd.upstream_queue
    exact h1.trans List.perm_middle

theorem exclusive_add (gd : greedy_data) (rq : Request) (he : Exclusive gd)
    (hnew : rq.id ∉ (queued gd).map Request.id) : Exclusive (greedy_add_request gd rq) := by
  unfold Exclusive at *
  have hp := (queued_add_perm gd rq).map Request.id
  rw [hp.nodup_iff, List.map_cons]
  exact List.nodup_cons.mpr ⟨hnew, he⟩

theorem queued_dispatch_sublist (gd : greedy_data) :
    (queued (greedy_dispatch gd).2).Sublist (queued gd) := by
  rcases dispatch_cases gd with ⟨_, _, h⟩ | ⟨u, us, hu, _, h⟩ | ⟨d, ds, hd, _, h⟩
  · rw [h]
  · rw [h]
    unfold queued
    rw [hu]
    exact (List.sublist_cons_self u us).append_right _
  · rw [h]
    unfold queued
    rw [hd]
    exact (List.sublist_cons_self d ds).append_left _

theorem exclusive_dispatch (gd : greedy_data) (he : Exclusive gd) :
    Exclusive (greedy_dispatch gd).2 := by
  unfold Exclusive at *
  exact he.sublist ((queued_dispatch_sublist gd).map Request.id)

theorem queued_merged_sublist (gd : greedy_data) (rq next : Request) :
    (queued (greedy_merged_requests gd rq next)).Sublist (queued gd) := by
  unfold queued greedy_merged_requests list_del_init
  exact (List.filter_sublist _).append (List.filter_sublist _)

theorem exclusive_merged (gd : greedy_data) (rq next : Request) (he : Exclusive gd) :
    Exclusive (greedy_merged_requests gd rq next) := by
  unfold Exclusive at *
  exact he.sublist ((queued_merged_sublist gd rq next).map Request.id)

theorem exclusive_step (gd : greedy_data) (op : Op) (he : Exclusive gd) (hok : okOp gd op) :
    Exclusive (step gd op) := by
  cases op with
  | add rq => exact exclusive_add gd rq he hok.2
  | dispatch => exact exclusive_dispatch gd he
  | merged rq next => exact exclusive_merged gd rq next he

theorem exclusive_run (ops : List Op) (gd : greedy_data) (he : Exclusive gd)
    (hok : okOps gd ops) : Exclusive (run gd ops) := by
  induction ops generalizing gd with
  | nil => exact he
  | cons op ops ih =>
    exact ih (step gd op) (exclusive_step gd op he hok.1) hok.2

theorem exclusive_init : Exclusive greedy_init_queue := by
  unfold Exclusive queued greedy_init_queue
  exact List.nodup_nil

theorem merged_not_queued (gd : greedy_data) (rq next : Request) :
    next.id ∉ (queued (greedy_merged_requests gd rq next)).map Request.id := by
  unfold queued greedy_merged_requests list_del_init
  intro h
  rcases List.mem_map.mp h with ⟨x, hx, hid⟩
  rcases List.mem_append.mp hx with hx | hx
  · have := (List.mem_filter.mp hx).2
    simp [hid] at this
  · have := (List.mem_filter.mp hx).2
    simp [hid] at this

theorem dispatch_not_queued (gd : greedy_data) (he : Exclusive gd) (r : Request)
    (hr : (greedy_dispatch gd).1 = some r) :
    r.id ∉ (queued (greedy_dispatch gd).2).map Request.id := by
  unfold Exclusive at he
  rcases dispatch_cases gd with ⟨_, _, h⟩ | ⟨u, us, hu, _, h⟩ | ⟨d, ds, hd, _, h⟩
  · rw [h] at hr; cases hr
  · rw [h] at hr ⊢
    have hru : u = r := Option.some.inj hr
    subst hru
    unfold queued at he ⊢
    rw [hu, List.cons_append, List.map_cons] at he
    exact (List.nodup_cons.mp he).1
  · rw [h] at hr ⊢
    have hrd : d = r := Option.some.inj hr
    subst hrd
    unfold queued at he ⊢
    rw [hd] at he
    have hp : (gd.upstream_queue ++ d :: ds).Perm (d :: (gd.upstream_queue ++ ds)) :=
      List.perm_middle
    have he' := ((hp.map Request.id).nodup_iff).mp he
    rw [List.map_cons] at he'
    exact (List.nodup_cons.mp he').1

/-! ## Distances from the current head -/

theorem front_le_up (gd : greedy_data) (ho : Ordered gd) (u : Request) (us : List Request)
    (hu : gd.upstream_queue = u :: us) : ∀ q ∈ gd.upstream_queue, u.pos ≤ q.pos := by
  intro q hq
  have hs := ho.up_sorted
  rw [hu] at hs hq
  rcases List.mem_cons.mp hq with hq | hq
  · rw [hq]
  · exact (List.pairwise_cons.mp hs).1 q hq

theorem front_ge_down (gd : greedy_data) (ho : Ordered gd) (d : Request) (ds : List Request)
    (hd : gd.downstream_queue = d :: ds) : ∀ q ∈ gd.downstream_queue, q.pos ≤ d.pos := by
  intro q hq
  have hs := ho.down_sorted
  rw [hd] at hs hq
  rcases List.mem_cons.mp hq with hq | hq
  · rw [hq]
  · exact (List.pairwise_cons.mp hs).1 q hq

theorem seek_sorted_up (gd : greedy_data) (ho : Ordered gd) :
    gd.upstream_queue.Pairwise
      (fun a b => seek a.pos gd.head_position ≤ seek b.pos gd.head_position) := by
  refine ho.up_sorted.imp_of_mem ?_
  intro a b ha hb hab
  have h1 := (ho.up_ge a ha).1
  have h2 := (ho.up_ge b hb).1
  unfold seek
  split_ifs <;> omega

theorem seek_sorted_down (gd : greedy_data) (ho : Ordered gd) :
    gd.downstream_queue.Pairwise
      (fun a b => seek a.pos gd.head_position ≤ seek b.pos gd.head_position) := by
  refine ho.down_sorted.imp_of_mem ?_
  intro a b ha hb hab
  have h1 := ho.down_le a ha
  have h2 := ho.down_le b hb
  unfold seek
  split_ifs
  omega

theorem nearest_of_ordered (gd : greedy_data) (ho : Ordered gd) (hne : queued gd ≠ []) :
    ∃ r, (greedy_dispatch gd).1 = some r ∧ r ∈ queued gd ∧
      ∀ q ∈ queued gd, seek r.pos gd.head_position ≤ seek q.pos gd.head_position := by
  rcases dispatch_cases gd with ⟨hu, hd, _⟩ | ⟨u, us, hu, hdn, h⟩ | ⟨d, ds, hd, hup, h⟩
  · exact absurd (by unfold queued; rw [hu, hd]; rfl) hne
  · have humem : u ∈ gd.upstream_queue := by rw [hu]; exact List.mem_cons_self _ _
    have hub := ho.up_ge u humem
    refine ⟨u, by rw [h], List.mem_append_left _ humem, ?_⟩
    intro q hq
    rcases List.mem_append.mp hq with hq | hq
    · have h1 := front_le_up gd ho u us hu q hq
      unfold seek
      split_ifs <;> omega
    · rcases hdn with hdn | ⟨d, ds, hd, hge⟩
      · rw [hdn] at hq; cases hq
      · have hdmem : d ∈ gd.downstream_queue := by rw [hd]; exact List.mem_cons_self _ _
        have hdb := ho.down_le d hdmem
        have hqd := front_ge_down gd ho d ds hd q hq
        rw [sector_sub_eq _ _ hdb ho.head_lt, sector_sub_eq _ _ hub.1 hub.2] at hge
        unfold seek
        split_ifs <;> omega
  · have hdmem : d ∈ gd.downstream_queue := by rw [hd]; exact List.mem_cons_self _ _
    have hdb := ho.down_le d hdmem
    refine ⟨d, by rw [h], List.mem_append_right _ hdmem, ?_⟩
    intro q hq
    rcases List.mem_append.mp hq with hq | hq
    · rcases hup with hup | ⟨u, us, hu, hlt⟩
      · rw [hup] at hq; cases hq
      · have humem : u ∈ gd.upstream_queue := by rw [hu]; exact List.mem_cons_self _ _
        have hub := ho.up_ge u humem
        have hqu := front_le_up gd ho u us hu q hq
        rw [sector_sub_eq _ _ hdb ho.head_lt, sector_sub_eq _ _ hub.1 hub.2] at hlt
        unfold seek
        split_ifs <;> omega
    · have h1 := front_ge_down gd ho d ds hd q hq
      have h2 := ho.down_le q hq
      unfold seek
      split_ifs
      omega

/-! ## Where the scan of `greedy_add_request` stops -/

theorem takeWhile_congr_mem (p q : Request → Bool) (l : List Request)
    (h : ∀ x ∈ l, p x = q x) : l.takeWhile p = l.takeWhile q := by
  induction l with
  | nil => rfl
  | cons x xs ih =>
    have hx := h x (List.mem_cons_self _ _)
    have ih' := ih (fun y hy => h y (List.mem_cons_of_mem _ hy))
    simp only [List.takeWhile_cons, hx, ih']

theorem dropWhile_congr_mem (p q : Request → Bool) (l : List Request)
    (h : ∀ x ∈ l, p x = q x) : l.dropWhile p = l.dropWhile q := by
  induction l with
  | nil => rfl
  | cons x xs ih =>
    have hx := h x (List.mem_cons_self _ _)
    have ih' := ih (fun y hy => h y (List.mem_cons_of_mem _ hy))
    simp only [List.dropWhile_cons, hx, ih']

theorem dropWhile_all_gt (k : Request → Nat) (c : Nat) (l : List Request)
    (hs : l.Pairwise (fun a b => k a ≤ k b)) :
    ∀ e ∈ l.dropWhile (fun x => decide (k x ≤ c)), c < k e := by
  induction l with
  | nil => intro e he; cases he
  | cons x xs ih =>
    have hx := List.pairwise_cons.mp hs
    intro e he
    by_cases hc : k x ≤ c
    · rw [List.dropWhile_cons] at he
      simp only [hc, decide_True, if_true] at he
      exact ih hx.2 e he
    · rw [List.dropWhile_cons] at he
      simp only [hc, decide_False, Bool.false_eq_true, if_false] at he
      rcases List.mem_cons.mp he with he | he
      · rw [he]; omega
      · have := hx.1 e he
        omega

theorem add_up_eq_insert (gd : greedy_data) (rq : Request) (ho : Ordered gd)
    (hrq : rq.pos < SECTOR_MOD) (h : gd.head_position < rq.pos) :
    (greedy_add_request gd rq).upstream_queue
      = insert_by_distance gd.head_position rq gd.upstream_queue := by
  rw [add_up gd rq h]
  show list_add_before _ rq gd.upstream_queue = _
  rw [list_add_before_split]
  unfold insert_by_distance scan_passed scan_rest
  have hc : ∀ x ∈ gd.upstream_queue,
      (!decide (sector_sub rq.pos gd.head_position < sector_sub x.pos gd.head_position))
        = decide (seek x.pos gd.head_position ≤ seek rq.pos gd.head_position) := by
    intro x hx
    have hxx := ho.up_ge x hx
    have hiff := stop_up_iff gd.head_position rq.pos x.pos hxx.1 hxx.2 (Nat.le_of_lt h) hrq
    have hseek : seek x.pos gd.head_position ≤ seek rq.pos gd.head_position
        ↔ ¬ rq.pos < x.pos := by
      unfold seek
      split_ifs <;> omega
    by_cases hlt : rq.pos < x.pos
    · simp [hiff.mpr hlt, hseek, hlt]
    · simp [mt hiff.mp hlt, hseek, hlt]
  rw [takeWhile_congr_mem _ _ _ hc, dropWhile_congr_mem _ _ _ hc]

theorem add_down_eq_insert (gd : greedy_data) (rq : Request) (ho : Ordered gd)
    (h : rq.pos ≤ gd.head_position) :
    (greedy_add_request gd rq).downstream_queue
      = insert_by_distance gd.head_position rq gd.downstream_queue := by
  rw [add_down gd rq h]
  show list_add_before _ rq gd.downstream_queue = _
  rw [list_add_before_split]
  unfold insert_by_distance scan_passed scan_rest
  have hc : ∀ x ∈ gd.downstream_queue,
      (!decide (sector_sub gd.head_position rq.pos < sector_sub gd.head_position x.pos))
        = decide (seek x.pos gd.head_position ≤ seek rq.pos gd.head_position) := by
    intro x hx
    have hxx := ho.down_le x hx
    have hiff := stop_down_iff gd.head_position rq.pos x.pos hxx h ho.head_lt
    have hseek : seek x.pos gd.head_position ≤ seek rq.pos gd.head_position
        ↔ ¬ x.pos < rq.pos := by
      unfold seek
      split_ifs
      omega
    by_cases hlt : x.pos < rq.pos
    · simp [hiff.mpr hlt, hseek, hlt]
    · simp [mt hiff.mp hlt, hseek, hlt]
  rw [takeWhile_congr_mem _ _ _ hc, dropWhile_congr_mem _ _ _ hc]

/-! ## Insertion-time head positions -/

theorem stamped_add (gd : greedy_data) (g : Nat → Option Nat) (rq : Request)
    (hs : Stamped gd g) (hnew : rq.id ∉ (queued gd).map Request.id) :
    Stamped (greedy_add_request gd rq) (stamp gd g (.add rq)) := by
  have hold : ∀ r ∈ queued gd, stamp gd g (.add rq) r.id = g r.id := by
    intro r hr
    have hne : r.id ≠ rq.id := by
      intro he
      exact hnew (he ▸ List.mem_map_of_mem Request.id hr)
    simp [stamp, hne]
  have hself : stamp gd g (.add rq) rq.id = some gd.head_position := by
    simp [stamp]
  by_cases h : gd.head_position < rq.pos
  · rw [add_up gd rq h]
    constructor
    · intro r hr
      rcases (mem_list_add_before _ rq r _).mp hr with hr | hr
      · subst hr; exact ⟨gd.head_position, hself, h⟩
      · rw [hold r (List.mem_append_left _ hr)]; exact hs.up r hr
    · intro r hr
      rw [hold r (List.mem_append_right _ hr)]; exact hs.down r hr
  · rw [add_down gd rq (Nat.not_lt.mp h)]
    constructor
    · intro r hr
      rw [hold r (List.mem_append_left _ hr)]; exact hs.up r hr
    · intro r hr
      rcases (mem_list_add_before _ rq r _).mp hr with hr | hr
      · subst hr; exact ⟨gd.head_position, hself, Nat.not_lt.mp h⟩
      · rw [hold r (List.mem_append_right _ hr)]; exact hs.down r hr

theorem stamped_dispatch (gd : greedy_data) (g : Nat → Option Nat) (hs : Stamped gd g) :
    Stamped (greedy_dispatch gd).2 g := by
  rcases dispatch_cases gd with ⟨_, _, h⟩ | ⟨u, us, hu, _, h⟩ | ⟨d, ds, hd, _, h⟩
  · rw [h]; exact hs
  · rw [h]
    exact ⟨fun r hr => hs.up r (by rw [hu]; exact List.mem_cons_of_mem _ hr), hs.down⟩
  · rw [h]
    exact ⟨hs.up, fun r hr => hs.down r (by rw [hd]; exact List.mem_cons_of_mem _ hr)⟩

theorem stamped_merged (gd : greedy_data) (g : Nat → Option Nat) (rq next : Request)
    (hs : Stamped gd g) : Stamped (greedy_merged_requests gd rq next) g :=
  ⟨fun r hr => hs.up r (List.mem_of_mem_filter hr),
   fun r hr => hs.down r (List.mem_of_mem_filter hr)⟩

theorem stamped_run (ops : List Op) (gd : greedy_data) (g : Nat → Option Nat)
    (hs : Stamped gd g) (hok : okOps gd ops) : Stamped (run gd ops) (stamps gd g ops) := by
  induction ops generalizing gd g with
  | nil => exact hs
  | cons op ops ih =>
    refine ih (step gd op) (stamp gd g op) ?_ hok.2
    cases op with
    | add rq => exact stamped_add gd g rq hs hok.1.2
    | dispatch => exact stamped_dispatch gd g hs
    | merged rq next => exact stamped_merged gd g rq next hs

theorem stamped_init : Stamped greedy_init_queue (fun _ => none) :=
  ⟨fun r hr => (by cases hr), fun r hr => (by cases hr)⟩

theorem ordered_reachable (ops : List Op) (hok : okOps greedy_init_queue ops) :
    Ordered (run greedy_init_queue ops) :=
  ordered_run ops greedy_init_queue (ordered_init 0 (by decide)) hok

/-! ## The claims -/

/-- Claim C1: in every state reached from `greedy_init_queue` by adds of requests
that are not queued, dispatches and merge notifications, a dispatch with at
least one non-empty queue returns a queued request whose distance from the
current head is minimal among all requests of both queues. -/
theorem dispatch_returns_nearest (ops : List Op) (hok : okOps greedy_init_queue ops)
    (hne : queued (run greedy_init_queue ops) ≠ []) :
    ∃ r, (greedy_dispatch (run greedy_init_queue ops)).1 = some r ∧
      r ∈ queued (run greedy_init_queue ops) ∧
      ∀ q ∈ queued (run greedy_init_queue ops),
        seek r.pos (run greedy_init_queue ops).head_position
          ≤ seek q.pos (run greedy_init_queue ops).head_position :=
  nearest_of_ordered _ (ordered_reachable ops hok) hne

theorem dispatch_returns_nearest_witness :
    ∃ r, (greedy_dispatch (run greedy_init_queue
        [.add ⟨1, 100⟩, .add ⟨2, 90⟩, .dispatch, .add ⟨3, 101⟩, .add ⟨4, 70⟩])).1 = some r ∧
      r ∈ queued (run greedy_init_queue
        [.add ⟨1, 100⟩, .add ⟨2, 90⟩, .dispatch, .add ⟨3, 101⟩, .add ⟨4, 70⟩]) ∧
      ∀ q ∈ queued (run greedy_init_queue
        [.add ⟨1, 100⟩, .add ⟨2, 90⟩, .dispatch, .add ⟨3, 101⟩, .add ⟨4, 70⟩]),
        seek r.pos (run greedy_init_queue
          [.add ⟨1, 100⟩, .add ⟨2, 90⟩, .dispatch, .add ⟨3, 101⟩, .add ⟨4, 70⟩]).head_position
          ≤ seek q.pos (run greedy_init_queue
          [.add ⟨1, 100⟩, .add ⟨2, 90⟩, .dispatch, .add ⟨3, 101⟩, .add ⟨4, 70⟩]).head_position :=
  dispatch_returns_nearest
    [.add ⟨1, 100⟩, .add ⟨2, 90⟩, .dispatch, .add ⟨3, 101⟩, .add ⟨4, 70⟩]
    (by decide) (by decide)

/-- Claim C2: for every state, dispatch returns none exactly when both queues
are empty, and a dispatch that returns none leaves both queues and the head
position as they were. -/
theorem dispatch_none_iff (gd : greedy_data) :
    ((greedy_dispatch gd).1 = none
      ↔ gd.upstream_queue = [] ∧ gd.downstream_queue = []) ∧
    ((greedy_dispatch gd).1 = none → (greedy_dispatch gd).2 = gd) := by
  rcases dispatch_cases gd with ⟨hu, hd, h⟩ | ⟨u, us, hu, _, h⟩ | ⟨d, ds, hd, _, h⟩
  · rw [h]; exact ⟨⟨fun _ => ⟨hu, hd⟩, fun _ => rfl⟩, fun _ => rfl⟩
  · rw [h]
    refine ⟨⟨fun hn => (by cases hn), fun hn => ?_⟩, fun hn => (by cases hn)⟩
    rw [hu] at hn; cases hn.1
  · rw [h]
    refine ⟨⟨fun hn => (by cases hn), fun hn => ?_⟩, fun hn => (by cases hn)⟩
    rw [hd] at hn; cases hn.2

theorem dispatch_none_iff_witness :
    ((greedy_dispatch greedy_init_queue).1 = none
      ↔ greedy_init_queue.upstream_queue = [] ∧ greedy_init_queue.downstream_queue = []) ∧
    ((greedy_dispatch greedy_init_queue).1 = none
      → (greedy_dispatch greedy_init_queue).2 = greedy_init_queue) :=
  dispatch_none_iff greedy_init_queue

/-- Claim C3: in every reachable state with both queues non-empty, dispatch
returns the front of the downstream (backward) queue exactly when
`head - front(backward).pos < front(forward).pos - head`, and otherwise, ties
included, the front of the upstream (forward) queue. -/
theorem dispatch_prefers_forward (ops : List Op) (hok : okOps greedy_init_queue ops)
    (u d : Request) (us ds : List Request)
    (hu : (run greedy_init_queue ops).upstream_queue = u :: us)
    (hd : (run greedy_init_queue ops).downstream_queue = d :: ds) :
    ((greedy_dispatch (run greedy_init_queue ops)).1 = some d
      ↔ ((run greedy_init_queue ops).head_position : Int) - (d.pos : Int)
          < (u.pos : Int) - ((run greedy_init_queue ops).head_position : Int)) ∧
    (¬ (((run greedy_init_queue ops).head_position : Int) - (d.pos : Int)
          < (u.pos : Int) - ((run greedy_init_queue ops).head_position : Int))
      → (greedy_dispatch (run greedy_init_queue ops)).1 = some u) := by
  have ho := ordered_reachable ops hok
  have he := exclusive_run ops _ exclusive_init hok
  have humem : u ∈ (run greedy_init_queue ops).upstream_queue := by
    rw [hu]; exact List.mem_cons_self _ _
  have hdmem : d ∈ (run greedy_init_queue ops).downstream_queue := by
    rw [hd]; exact List.mem_cons_self _ _
  have hub := ho.up_ge u humem
  have hdb := ho.down_le d hdmem
  have hne : u ≠ d := by
    intro hud
    unfold Exclusive queued at he
    rw [hu, hd, hud] at he
    simp at he
  by_cases hlt : sector_sub (run greedy_init_queue ops).head_position d.pos
      < sector_sub u.pos (run greedy_init_queue ops).head_position
  · rw [dispatch_both_down _ u d us ds hu hd hlt]
    rw [sector_sub_eq _ _ hdb ho.head_lt, sector_sub_eq _ _ hub.1 hub.2] at hlt
    refine ⟨⟨fun _ => by omega, fun _ => rfl⟩, fun hn => ?_⟩
    omega
  · rw [dispatch_both_up _ u d us ds hu hd hlt]
    rw [sector_sub_eq _ _ hdb ho.head_lt, sector_sub_eq _ _ hub.1 hub.2] at hlt
    refine ⟨⟨fun h => ?_, fun h => ?_⟩, fun _ => rfl⟩
    · exact absurd (Option.some.inj h) hne
    · omega

theorem dispatch_prefers_forward_witness :
    ((greedy_dispatch (run greedy_init_queue
        [.add ⟨9, 100⟩, .dispatch, .add ⟨1, 120⟩, .add ⟨2, 80⟩])).1 = some ⟨2, 80⟩
      ↔ ((run greedy_init_queue
          [.add ⟨9, 100⟩, .dispatch, .add ⟨1, 120⟩, .add ⟨2, 80⟩]).head_position : Int)
          - ((⟨2, 80⟩ : Request).pos : Int)
          < ((⟨1, 120⟩ : Request).pos : Int) - ((run greedy_init_queue
          [.add ⟨9, 100⟩, .dispatch, .add ⟨1, 120⟩, .add ⟨2, 80⟩]).head_position : Int)) ∧
    (¬ (((run greedy_init_queue
          [.add ⟨9, 100⟩, .dispatch, .add ⟨1, 120⟩, .add ⟨2, 80⟩]).head_position : Int)
          - ((⟨2, 80⟩ : Request).pos : Int)
          < ((⟨1, 120⟩ : Request).pos : Int) - ((run greedy_init_queue
          [.add ⟨9, 100⟩, .dispatch, .add ⟨1, 120⟩, .add ⟨2, 80⟩]).head_position : Int))
      → (greedy_dispatch (run greedy_init_queue
        [.add ⟨9, 100⟩, .dispatch, .add ⟨1, 120⟩, .add ⟨2, 80⟩])).1 = some ⟨1, 120⟩) :=
  dispatch_prefers_forward [.add ⟨9, 100⟩, .dispatch, .add ⟨1, 120⟩, .add ⟨2, 80⟩]
    (by decide) ⟨1, 120⟩ ⟨2, 80⟩ [] [] (by decide) (by decide)

/-- Claim C4: for every state, when dispatch returns a request `r` the new head
position is `r.pos`, `r` was the front of one queue, which is left with its
tail, and the other queue is unchanged. -/
theorem dispatch_advances_head (gd : greedy_data) (r : Request)
    (h : (greedy_dispatch gd).1 = some r) :
    (greedy_dispatch gd).2.head_position = r.pos ∧
    ((gd.upstream_queue = r :: (greedy_dispatch gd).2.upstream_queue ∧
        (greedy_dispatch gd).2.downstream_queue = gd.downstream_queue) ∨
     (gd.downstream_queue = r :: (greedy_dispatch gd).2.downstream_queue ∧
        (greedy_dispatch gd).2.upstream_queue = gd.upstream_queue)) := by
  rcases dispatch_cases gd with ⟨_, _, hx⟩ | ⟨u, us, hu, _, hx⟩ | ⟨d, ds, hd, _, hx⟩
  · rw [hx] at h; cases h
  · rw [hx] at h ⊢
    have hur : u = r := Option.some.inj h
    subst hur
    exact ⟨rfl, Or.inl ⟨hu, rfl⟩⟩
  · rw [hx] at h ⊢
    have hdr : d = r := Option.some.inj h
    subst hdr
    exact ⟨rfl, Or.inr ⟨hd, rfl⟩⟩

theorem dispatch_advances_head_witness :
    (greedy_dispatch ⟨[⟨1, 150⟩, ⟨2, 160⟩], [⟨3, 80⟩], 100⟩).2.head_position
        = (⟨3, 80⟩ : Request).pos ∧
    (((⟨[⟨1, 150⟩, ⟨2, 160⟩], [⟨3, 80⟩], 100⟩ : greedy_data).upstream_queue
        = ⟨3, 80⟩ :: (greedy_dispatch ⟨[⟨1, 150⟩, ⟨2, 160⟩], [⟨3, 80⟩], 100⟩).2.upstream_queue ∧
        (greedy_dispatch ⟨[⟨1, 150⟩, ⟨2, 160⟩], [⟨3, 80⟩], 100⟩).2.downstream_queue
          = (⟨[⟨1, 150⟩, ⟨2, 160⟩], [⟨3, 80⟩], 100⟩ : greedy_data).downstream_queue) ∨
     ((⟨[⟨1, 150⟩, ⟨2, 160⟩], [⟨3, 80⟩], 100⟩ : greedy_data).downstream_queue
        = ⟨3, 80⟩ :: (greedy_dispatch ⟨[⟨1, 150⟩, ⟨2, 160⟩], [⟨3, 80⟩], 100⟩).2.downstream_queue ∧
        (greedy_dispatch ⟨[⟨1, 150⟩, ⟨2, 160⟩], [⟨3, 80⟩], 100⟩).2.upstream_queue
          = (⟨[⟨1, 150⟩, ⟨2, 160⟩], [⟨3, 80⟩], 100⟩ : greedy_data).upstream_queue)) :=
  dispatch_advances_head ⟨[⟨1, 150⟩, ⟨2, 160⟩], [⟨3, 80⟩], 100⟩ ⟨3, 80⟩ (by decide)

/-- Claim C6: in every reachable state, `greedy_add_request` of a new request
produces in its target queue exactly the insertion the specification words by
distance from the current head: the request stands immediately before the first
entry that is strictly farther from the head, or at the tail; every entry after
it is strictly farther, every entry before it is not farther (so entries of
equal distance stay in front of it), and the existing entries keep their
order. -/
theorem add_inserts_by_distance (ops : List Op) (hok : okOps greedy_init_queue ops)
    (rq : Request) (hrq : okOp (run greedy_init_queue ops) (.add rq)) :
    ((run greedy_init_queue ops).head_position < rq.pos →
      (greedy_add_request (run greedy_init_queue ops) rq).upstream_queue
        = insert_by_distance (run greedy_init_queue ops).head_position rq (run greedy_init_queue ops).upstream_queue ∧
      (∀ e ∈ scan_rest (run greedy_init_queue ops).head_position rq (run greedy_init_queue ops).upstream_queue,
        seek rq.pos (run greedy_init_queue ops).head_position < seek e.pos (run greedy_init_queue ops).head_position)) ∧
    (rq.pos ≤ (run greedy_init_queue ops).head_position →
      (greedy_add_request (run greedy_init_queue ops) rq).downstream_queue
        = insert_by_distance (run greedy_init_queue ops).head_position rq (run greedy_init_queue ops).downstream_queue ∧
      (∀ e ∈ scan_rest (run greedy_init_queue ops).head_position rq (run greedy_init_queue ops).downstream_queue,
        seek rq.pos (run greedy_init_queue ops).head_position < seek e.pos (run greedy_init_queue ops).head_position)) ∧
    (∀ q : List Request,
      (∀ e ∈ scan_passed (run greedy_init_queue ops).head_position rq q,
        seek e.pos (run greedy_init_queue ops).head_position ≤ seek rq.pos (run greedy_init_queue ops).head_position) ∧
      scan_passed (run greedy_init_queue ops).head_position rq q ++ scan_rest (run greedy_init_queue ops).head_position rq q = q) := by
  have ho := ordered_reachable ops hok
  refine ⟨fun h => ⟨add_up_eq_insert _ rq ho hrq.1 h, ?_⟩,
          fun h => ⟨add_down_eq_insert _ rq ho h, ?_⟩, fun q => ⟨?_, ?_⟩⟩
  · exact dropWhile_all_gt (fun e => seek e.pos (run greedy_init_queue ops).head_position) _ _
      (seek_sorted_up _ ho)
  · exact dropWhile_all_gt (fun e => seek e.pos (run greedy_init_queue ops).head_position) _ _
      (seek_sorted_down _ ho)
  · intro e he
    have := List.mem_takeWhile_imp he
    simpa using this
  · exact List.takeWhile_append_dropWhile _ _

theorem add_inserts_by_distance_witness :
    ((run greedy_init_queue [.add ⟨1, 100⟩, .add ⟨2, 90⟩, .dispatch, .add ⟨3, 101⟩]).head_position < (⟨7, 100⟩ : Request).pos →
      (greedy_add_request (run greedy_init_queue [.add ⟨1, 100⟩, .add ⟨2, 90⟩, .dispatch, .add ⟨3, 101⟩]) ⟨7, 100⟩).upstream_queue
        = insert_by_distance (run greedy_init_queue [.add ⟨1, 100⟩, .add ⟨2, 90⟩, .dispatch, .add ⟨3, 101⟩]).head_position ⟨7, 100⟩
            (run greedy_init_queue [.add ⟨1, 100⟩, .add ⟨2, 90⟩, .dispatch, .add ⟨3, 101⟩]).upstream_queue ∧
      (∀ e ∈ scan_rest (run greedy_init_queue [.add ⟨1, 100⟩, .add ⟨2, 90⟩, .dispatch, .add ⟨3, 101⟩]).head_position ⟨7, 100⟩
            (run greedy_init_queue [.add ⟨1, 100⟩, .add ⟨2, 90⟩, .dispatch, .add ⟨3, 101⟩]).upstream_queue,
        seek (⟨7, 100⟩ : Request).pos (run greedy_init_queue [.add ⟨1, 100⟩, .add ⟨2, 90⟩, .dispatch, .add ⟨3, 101⟩]).head_position
          < seek e.pos (run greedy_init_queue [.add ⟨1, 100⟩, .add ⟨2, 90⟩, .dispatch, .add ⟨3, 101⟩]).head_position)) ∧
    ((⟨7, 100⟩ : Request).pos ≤ (run greedy_init_queue [.add ⟨1, 100⟩, .add ⟨2, 90⟩, .dispatch, .add ⟨3, 101⟩]).head_position →
      (greedy_add_request (run greedy_init_queue [.add ⟨1, 100⟩, .add ⟨2, 90⟩, .dispatch, .add ⟨3, 101⟩]) ⟨7, 100⟩).downstream_queue
        = insert_by_distance (run greedy_init_queue [.add ⟨1, 100⟩, .add ⟨2, 90⟩, .dispatch, .add ⟨3, 101⟩]).head_position ⟨7, 100⟩
            (run greedy_init_queue [.add ⟨1, 100⟩, .add ⟨2, 90⟩, .dispatch, .add ⟨3, 101⟩]).downstream_queue ∧
      (∀ e ∈ scan_rest (run greedy_init_queue [.add ⟨1, 100⟩, .add ⟨2, 90⟩, .dispatch, .add ⟨3, 101⟩]).head_position ⟨7, 100⟩
            (run greedy_init_queue [.add ⟨1, 100⟩, .add ⟨2, 90⟩, .dispatch, .add ⟨3, 101⟩]).downstream_queue,
        seek (⟨7, 100⟩ : Request).pos (run greedy_init_queue [.add ⟨1, 100⟩, .add ⟨2, 90⟩, .dispatch, .add ⟨3, 101⟩]).head_position
          < seek e.pos (run greedy_init_queue [.add ⟨1, 100⟩, .add ⟨2, 90⟩, .dispatch, .add ⟨3, 101⟩]).head_position)) ∧
    (∀ q : List Request,
      (∀ e ∈ scan_passed (run greedy_init_queue [.add ⟨1, 100⟩, .add ⟨2, 90⟩, .dispatch, .add ⟨3, 101⟩]).head_position ⟨7, 100⟩ q,
        seek e.pos (run greedy_init_queue [.add ⟨1, 100⟩, .add ⟨2, 90⟩, .dispatch, .add ⟨3, 101⟩]).head_position
          ≤ seek (⟨7, 100⟩ : Request).pos (run greedy_init_queue [.add ⟨1, 100⟩, .add ⟨2, 90⟩, .dispatch, .add ⟨3, 101⟩]).head_position) ∧
      scan_passed (run greedy_init_queue [.add ⟨1, 100⟩, .add ⟨2, 90⟩, .dispatch, .add ⟨3, 101⟩]).head_position ⟨7, 100⟩ q
        ++ scan_rest (run greedy_init_queue [.add ⟨1, 100⟩, .add ⟨2, 90⟩, .dispatch, .add ⟨3, 101⟩]).head_position ⟨7, 100⟩ q = q) :=
  add_inserts_by_distance [.add ⟨1, 100⟩, .add ⟨2, 90⟩, .dispatch, .add ⟨3, 101⟩] (by decide) ⟨7, 100⟩ (by decide)

/-- Claim C7 as stated fails: after `add 100`, `add 90`, `dispatch`, `add 101`
from the initial state the upstream queue is `[100, 101]`; request 100 was
inserted at head 0 (distance 100) and request 101 at head 90 (distance 11), so
the queue is not non-decreasing in insertion-time distance. -/
theorem insert_seek_not_sorted :
    okOps greedy_init_queue [.add ⟨1, 100⟩, .add ⟨2, 90⟩, .dispatch, .add ⟨3, 101⟩] ∧
    (run greedy_init_queue [.add ⟨1, 100⟩, .add ⟨2, 90⟩, .dispatch, .add ⟨3, 101⟩]).upstream_queue = [⟨1, 100⟩, ⟨3, 101⟩] ∧
    stamps greedy_init_queue (fun _ => none) [.add ⟨1, 100⟩, .add ⟨2, 90⟩, .dispatch, .add ⟨3, 101⟩] 1 = some 0 ∧
    stamps greedy_init_queue (fun _ => none) [.add ⟨1, 100⟩, .add ⟨2, 90⟩, .dispatch, .add ⟨3, 101⟩] 3 = some 90 ∧
    ¬ SortedByInsertSeek (stamps greedy_init_queue (fun _ => none) [.add ⟨1, 100⟩, .add ⟨2, 90⟩, .dispatch, .add ⟨3, 101⟩])
        (run greedy_init_queue [.add ⟨1, 100⟩, .add ⟨2, 90⟩, .dispatch, .add ⟨3, 101⟩]).upstream_queue := by
  refine ⟨by decide, by decide, by decide, by decide, ?_⟩
  intro h
  have hq : (run greedy_init_queue [.add ⟨1, 100⟩, .add ⟨2, 90⟩, .dispatch, .add ⟨3, 101⟩]).upstream_queue = [⟨1, 100⟩, ⟨3, 101⟩] := by decide
  rw [hq] at h
  unfold SortedByInsertSeek at h
  have h1 := (List.pairwise_cons.mp h).1 ⟨3, 101⟩ (List.mem_cons_self _ _) 0 90
    (by decide) (by decide)
  exact absurd h1 (by decide)

/-- Claim C7, amended: in every reachable state, with adds and dispatches
interleaved at will, every queued request has a recorded insertion-time head
`h`, and it is no farther from `h` than any request queued behind it in the
same queue is from that same `h`. -/
theorem sorted_from_insert_head (ops : List Op) (hok : okOps greedy_init_queue ops) :
    (run greedy_init_queue ops).upstream_queue.Pairwise (fun a b =>
      ∃ h, stamps greedy_init_queue (fun _ => none) ops a.id = some h ∧
        seek a.pos h ≤ seek b.pos h) ∧
    (run greedy_init_queue ops).downstream_queue.Pairwise (fun a b =>
      ∃ h, stamps greedy_init_queue (fun _ => none) ops a.id = some h ∧
        seek a.pos h ≤ seek b.pos h) := by
  have ho := ordered_reachable ops hok
  have hs := stamped_run ops greedy_init_queue (fun _ => none) stamped_init hok
  constructor
  · refine ho.up_sorted.imp_of_mem ?_
    intro a b ha _ hab
    rcases hs.up a ha with ⟨h, hg, hlt⟩
    refine ⟨h, hg, ?_⟩
    unfold seek
    split_ifs <;> omega
  · refine ho.down_sorted.imp_of_mem ?_
    intro a b ha _ hab
    rcases hs.down a ha with ⟨h, hg, hle⟩
    refine ⟨h, hg, ?_⟩
    unfold seek
    split_ifs <;> omega

theorem sorted_from_insert_head_witness :
    (run greedy_init_queue [.add ⟨1, 100⟩, .add ⟨2, 90⟩, .dispatch, .add ⟨3, 101⟩]).upstream_queue.Pairwise (fun a b =>
      ∃ h, stamps greedy_init_queue (fun _ => none) [.add ⟨1, 100⟩, .add ⟨2, 90⟩, .dispatch, .add ⟨3, 101⟩] a.id = some h ∧
        seek a.pos h ≤ seek b.pos h) ∧
    (run greedy_init_queue [.add ⟨1, 100⟩, .add ⟨2, 90⟩, .dispatch, .add ⟨3, 101⟩]).downstream_queue.Pairwise (fun a b =>
      ∃ h, stamps greedy_init_queue (fun _ => none) [.add ⟨1, 100⟩, .add ⟨2, 90⟩, .dispatch, .add ⟨3, 101⟩] a.id = some h ∧
        seek a.pos h ≤ seek b.pos h) :=
  sorted_from_insert_head [.add ⟨1, 100⟩, .add ⟨2, 90⟩, .dispatch, .add ⟨3, 101⟩] (by decide)

theorem ordered_adds (rqs : List Request) (gd : greedy_data) (ho : Ordered gd)
    (hr : ∀ r ∈ rqs, r.pos < SECTOR_MOD) :
    Ordered (rqs.foldl greedy_add_request gd) ∧
    (rqs.foldl greedy_add_request gd).head_position = gd.head_position := by
  induction rqs generalizing gd with
  | nil => exact ⟨ho, rfl⟩
  | cons r rs ih =>
    have h1 := ih (greedy_add_request gd r)
      (ordered_add gd r ho (hr r (List.mem_cons_self _ _)))
      (fun x hx => hr x (List.mem_cons_of_mem _ hx))
    rw [add_head] at h1
    exact h1

/-- Claim C9 as stated fails: a request whose position equals the head position
(position 0 added to the initial state, head 0) is at or ahead of the head,
yet `greedy_add_request` puts it into the downstream (backward) queue and not
into the upstream (forward) queue. -/
theorem add_at_head_goes_backward :
    (⟨1, 0⟩ : Request).pos ≥ greedy_init_queue.head_position ∧
    (⟨1, 0⟩ : Request) ∉ (greedy_add_request greedy_init_queue ⟨1, 0⟩).upstream_queue ∧
    (greedy_add_request greedy_init_queue ⟨1, 0⟩).downstream_queue = [⟨1, 0⟩] := by
  decide

/-- Claim C9, amended: a request that is not yet queued is placed in the
upstream (forward) queue exactly when its position is strictly ahead of the
head, and in the downstream (backward) queue exactly when its position is at or
behind the head; a request whose position equals the head position goes to the
downstream queue. -/
theorem add_direction (gd : greedy_data) (rq : Request) (hnew : rq ∉ queued gd) :
    (rq ∈ (greedy_add_request gd rq).upstream_queue ↔ gd.head_position < rq.pos) ∧
    (rq ∈ (greedy_add_request gd rq).downstream_queue ↔ rq.pos ≤ gd.head_position) ∧
    (rq.pos = gd.head_position → rq ∈ (greedy_add_request gd rq).downstream_queue) := by
  have hu : rq ∉ gd.upstream_queue := fun h => hnew (List.mem_append_left _ h)
  have hd : rq ∉ gd.downstream_queue := fun h => hnew (List.mem_append_right _ h)
  by_cases h : gd.head_position < rq.pos
  · rw [add_up gd rq h]
    refine ⟨⟨fun _ => h, fun _ => ?_⟩, ⟨fun hm => absurd hm hd, fun hle => ?_⟩, fun he => ?_⟩
    · exact (mem_list_add_before _ rq rq _).mpr (Or.inl rfl)
    · omega
    · omega
  · have h' : rq.pos ≤ gd.head_position := Nat.not_lt.mp h
    rw [add_down gd rq h']
    have hm : rq ∈ list_add_before (fun it => decide (sector_sub gd.head_position rq.pos
        < sector_sub gd.head_position it.pos)) rq gd.downstream_queue :=
      (mem_list_add_before _ rq rq _).mpr (Or.inl rfl)
    exact ⟨⟨fun hx => absurd hx hu, fun hlt => absurd hlt h⟩, ⟨fun _ => h', fun _ => hm⟩,
      fun _ => hm⟩

theorem add_direction_witness :
    ((⟨3, 5⟩ : Request) ∈ (greedy_add_request ⟨[⟨1, 7⟩], [⟨2, 3⟩], 5⟩ ⟨3, 5⟩).upstream_queue
      ↔ (⟨[⟨1, 7⟩], [⟨2, 3⟩], 5⟩ : greedy_data).head_position < (⟨3, 5⟩ : Request).pos) ∧
    ((⟨3, 5⟩ : Request) ∈ (greedy_add_request ⟨[⟨1, 7⟩], [⟨2, 3⟩], 5⟩ ⟨3, 5⟩).downstream_queue
      ↔ (⟨3, 5⟩ : Request).pos ≤ (⟨[⟨1, 7⟩], [⟨2, 3⟩], 5⟩ : greedy_data).head_position) ∧
    ((⟨3, 5⟩ : Request).pos = (⟨[⟨1, 7⟩], [⟨2, 3⟩], 5⟩ : greedy_data).head_position →
      (⟨3, 5⟩ : Request) ∈
        (greedy_add_request ⟨[⟨1, 7⟩], [⟨2, 3⟩], 5⟩ ⟨3, 5⟩).downstream_queue) :=
  add_direction ⟨[⟨1, 7⟩], [⟨2, 3⟩], 5⟩ ⟨3, 5⟩ (by decide)

/-- Claim C10: in every state reached from `greedy_init_queue` by adds of requests
that are not queued, dispatches and merge notifications, no request occurs
twice across the two queues taken together (in particular none is in both);
right after dispatch returns `r`, and right after a merge notification with
absorbed request `next`, that request is in neither queue. -/
theorem exclusive_membership (ops : List Op) (hok : okOps greedy_init_queue ops) :
    (((run greedy_init_queue ops).upstream_queue ++ (run greedy_init_queue ops).downstream_queue).map Request.id).Nodup ∧
    (∀ r ∈ (run greedy_init_queue ops).upstream_queue, r.id ∉ (run greedy_init_queue ops).downstream_queue.map Request.id) ∧
    (∀ r, (greedy_dispatch (run greedy_init_queue ops)).1 = some r →
      r.id ∉ ((greedy_dispatch (run greedy_init_queue ops)).2.upstream_queue
        ++ (greedy_dispatch (run greedy_init_queue ops)).2.downstream_queue).map Request.id) ∧
    (∀ rq next, next.id ∉ ((greedy_merged_requests (run greedy_init_queue ops) rq next).upstream_queue
        ++ (greedy_merged_requests (run greedy_init_queue ops) rq next).downstream_queue).map Request.id) := by
  have he := exclusive_run ops _ exclusive_init hok
  refine ⟨he, ?_, fun r hr => dispatch_not_queued _ he r hr,
    fun rq next => merged_not_queued _ rq next⟩
  intro r hr hmem
  unfold Exclusive queued at he
  rw [List.map_append] at he
  exact (List.nodup_append.mp he).2.2 (List.mem_map_of_mem Request.id hr) hmem

theorem exclusive_membership_witness :
    (((run greedy_init_queue [.add ⟨1, 100⟩, .add ⟨2, 90⟩, .dispatch, .add ⟨3, 101⟩, .add ⟨4, 70⟩]).upstream_queue
        ++ (run greedy_init_queue [.add ⟨1, 100⟩, .add ⟨2, 90⟩, .dispatch, .add ⟨3, 101⟩, .add ⟨4, 70⟩]).downstream_queue).map Request.id).Nodup ∧
    (∀ r ∈ (run greedy_init_queue [.add ⟨1, 100⟩, .add ⟨2, 90⟩, .dispatch, .add ⟨3, 101⟩, .add ⟨4, 70⟩]).upstream_queue,
      r.id ∉ (run greedy_init_queue [.add ⟨1, 100⟩, .add ⟨2, 90⟩, .dispatch, .add ⟨3, 101⟩, .add ⟨4, 70⟩]).downstream_queue.map Request.id) ∧
    (∀ r, (greedy_dispatch (run greedy_init_queue [.add ⟨1, 100⟩, .add ⟨2, 90⟩, .dispatch, .add ⟨3, 101⟩, .add ⟨4, 70⟩])).1 = some r →
      r.id ∉ ((greedy_dispatch (run greedy_init_queue [.add ⟨1, 100⟩, .add ⟨2, 90⟩, .dispatch, .add ⟨3, 101⟩, .add ⟨4, 70⟩])).2.upstream_queue
        ++ (greedy_dispatch (run greedy_init_queue [.add ⟨1, 100⟩, .add ⟨2, 90⟩, .dispatch, .add ⟨3, 101⟩, .add ⟨4, 70⟩])).2.downstream_queue).map Request.id) ∧
    (∀ rq next, next.id ∉
      ((greedy_merged_requests (run greedy_init_queue [.add ⟨1, 100⟩, .add ⟨2, 90⟩, .dispatch, .add ⟨3, 101⟩, .add ⟨4, 70⟩]) rq next).upstream_queue
        ++ (greedy_merged_requests (run greedy_init_queue [.add ⟨1, 100⟩, .add ⟨2, 90⟩, .dispatch, .add ⟨3, 101⟩, .add ⟨4, 70⟩]) rq next).downstream_queue).map
          Request.id) :=
  exclusive_membership [.add ⟨1, 100⟩, .add ⟨2, 90⟩, .dispatch, .add ⟨3, 101⟩, .add ⟨4, 70⟩] (by decide)

/-! ## Removal by address -/

theorem filter_id_length (l : List Request) (i : Nat)
    (hn : (l.map Request.id).Nodup) (hi : i ∈ l.map Request.id) :
    (l.filter (fun x => decide (x.id ≠ i))).length + 1 = l.length := by
  induction l with
  | nil => cases hi
  | cons x xs ih =>
    rw [List.map_cons] at hn hi
    have hx := List.nodup_cons.mp hn
    by_cases hxi : x.id = i
    · have hnot : i ∉ xs.map Request.id := hxi ▸ hx.1
      have hall : xs.filter (fun y => decide (y.id ≠ i)) = xs := by
        rw [List.filter_eq_self]
        intro a ha
        have : a.id ≠ i := fun he => hnot (he ▸ List.mem_map_of_mem Request.id ha)
        simpa using this
      rw [List.filter_cons_of_neg (by simp [hxi]), hall, List.length_cons]
    · have hi' : i ∈ xs.map Request.id := by
        rcases List.mem_cons.mp hi with h | h
        · exact absurd h.symm hxi
        · exact h
      have := ih hx.2 hi'
      rw [List.filter_cons_of_pos (by simp [hxi]), List.length_cons, List.length_cons]
      omega

theorem queued_merged_filter (gd : greedy_data) (rq next : Request) :
    queued (greedy_merged_requests gd rq next)
      = (queued gd).filter (fun x => decide (x.id ≠ next.id)) := by
  unfold queued greedy_merged_requests list_del_init
  rw [List.filter_append]

/-- Claim C11: for every state, a merge notification leaves each queue as a
sublist of its old contents that holds exactly the old entries other than the
absorbed request, in their old order; the surviving request and every other
entry stay in their queue, the head position is unchanged, the state is
unchanged when the absorbed request was in neither queue, and when it was
queued (no request being linked twice) exactly one entry is gone. -/
theorem merged_erases_absorbed (gd : greedy_data) (rq next : Request) :
    (greedy_merged_requests gd rq next).upstream_queue.Sublist gd.upstream_queue ∧
    (greedy_merged_requests gd rq next).downstream_queue.Sublist gd.downstream_queue ∧
    (∀ x, x ∈ (greedy_merged_requests gd rq next).upstream_queue
        ↔ x ∈ gd.upstream_queue ∧ x.id ≠ next.id) ∧
    (∀ x, x ∈ (greedy_merged_requests gd rq next).downstream_queue
        ↔ x ∈ gd.downstream_queue ∧ x.id ≠ next.id) ∧
    (greedy_merged_requests gd rq next).head_position = gd.head_position ∧
    (next.id ∉ (queued gd).map Request.id → greedy_merged_requests gd rq next = gd) ∧
    (Exclusive gd → next.id ∈ (queued gd).map Request.id →
      (queued (greedy_merged_requests gd rq next)).length + 1 = (queued gd).length) := by
  refine ⟨List.filter_sublist _, List.filter_sublist _, ?_, ?_, rfl, ?_, ?_⟩
  · intro x
    simp [greedy_merged_requests, list_del_init, List.mem_filter]
  · intro x
    simp [greedy_merged_requests, list_del_init, List.mem_filter]
  · intro h
    have hu : list_del_init next gd.upstream_queue = gd.upstream_queue := by
      unfold list_del_init
      rw [List.filter_eq_self]
      intro a ha
      have : a.id ≠ next.id := fun he =>
        h (he ▸ List.mem_map_of_mem Request.id (List.mem_append_left _ ha))
      simpa using this
    have hd : list_del_init next gd.downstream_queue = gd.downstream_queue := by
      unfold list_del_init
      rw [List.filter_eq_self]
      intro a ha
      have : a.id ≠ next.id := fun he =>
        h (he ▸ List.mem_map_of_mem Request.id (List.mem_append_right _ ha))
      simpa using this
    unfold greedy_merged_requests
    rw [hu, hd]
  · intro he hq
    rw [queued_merged_filter]
    exact filter_id_length (queued gd) next.id he hq

theorem merged_erases_absorbed_witness :
    (greedy_merged_requests ⟨[⟨1, 7⟩, ⟨4, 9⟩], [⟨2, 3⟩], 5⟩ ⟨1, 7⟩ ⟨4, 9⟩).upstream_queue.Sublist
      (⟨[⟨1, 7⟩, ⟨4, 9⟩], [⟨2, 3⟩], 5⟩ : greedy_data).upstream_queue ∧
    (greedy_merged_requests ⟨[⟨1, 7⟩, ⟨4, 9⟩], [⟨2, 3⟩], 5⟩ ⟨1, 7⟩
        ⟨4, 9⟩).downstream_queue.Sublist
      (⟨[⟨1, 7⟩, ⟨4, 9⟩], [⟨2, 3⟩], 5⟩ : greedy_data).downstream_queue ∧
    (∀ x, x ∈ (greedy_merged_requests ⟨[⟨1, 7⟩, ⟨4, 9⟩], [⟨2, 3⟩], 5⟩ ⟨1, 7⟩
          ⟨4, 9⟩).upstream_queue
        ↔ x ∈ (⟨[⟨1, 7⟩, ⟨4, 9⟩], [⟨2, 3⟩], 5⟩ : greedy_data).upstream_queue
          ∧ x.id ≠ (⟨4, 9⟩ : Request).id) ∧
    (∀ x, x ∈ (greedy_merged_requests ⟨[⟨1, 7⟩, ⟨4, 9⟩], [⟨2, 3⟩], 5⟩ ⟨1, 7⟩
          ⟨4, 9⟩).downstream_queue
        ↔ x ∈ (⟨[⟨1, 7⟩, ⟨4, 9⟩], [⟨2, 3⟩], 5⟩ : greedy_data).downstream_queue
          ∧ x.id ≠ (⟨4, 9⟩ : Request).id) ∧
    (greedy_merged_requests ⟨[⟨1, 7⟩, ⟨4, 9⟩], [⟨2, 3⟩], 5⟩ ⟨1, 7⟩ ⟨4, 9⟩).head_position
      = (⟨[⟨1, 7⟩, ⟨4, 9⟩], [⟨2, 3⟩], 5⟩ : greedy_data).head_position ∧
    ((⟨4, 9⟩ : Request).id ∉
        (queued ⟨[⟨1, 7⟩, ⟨4, 9⟩], [⟨2, 3⟩], 5⟩).map Request.id →
      greedy_merged_requests ⟨[⟨1, 7⟩, ⟨4, 9⟩], [⟨2, 3⟩], 5⟩ ⟨1, 7⟩ ⟨4, 9⟩
        = ⟨[⟨1, 7⟩, ⟨4, 9⟩], [⟨2, 3⟩], 5⟩) ∧
    (Exclusive ⟨[⟨1, 7⟩, ⟨4, 9⟩], [⟨2, 3⟩], 5⟩ →
      (⟨4, 9⟩ : Request).id ∈ (queued ⟨[⟨1, 7⟩, ⟨4, 9⟩], [⟨2, 3⟩], 5⟩).map Request.id →
      (queued (greedy_merged_requests ⟨[⟨1, 7⟩, ⟨4, 9⟩], [⟨2, 3⟩], 5⟩ ⟨1, 7⟩
        ⟨4, 9⟩)).length + 1
        = (queued ⟨[⟨1, 7⟩, ⟨4, 9⟩], [⟨2, 3⟩], 5⟩).length) :=
  merged_erases_absorbed ⟨[⟨1, 7⟩, ⟨4, 9⟩], [⟨2, 3⟩], 5⟩ ⟨1, 7⟩ ⟨4, 9⟩

/-- Claim C13: for every state, `greedy_add_request`, `greedy_merged_requests` and a
dispatch that returns none leave the head position unchanged; a call that
changes the head position is a dispatch that returns a request. -/
theorem head_changes_only_on_dispatch (gd : greedy_data) :
    (∀ rq, (greedy_add_request gd rq).head_position = gd.head_position) ∧
    (∀ rq next, (greedy_merged_requests gd rq next).head_position = gd.head_position) ∧
    ((greedy_dispatch gd).1 = none →
      (greedy_dispatch gd).2.head_position = gd.head_position) ∧
    (∀ op, (step gd op).head_position ≠ gd.head_position →
      op = .dispatch ∧ ∃ r, (greedy_dispatch gd).1 = some r ∧
        (step gd op).head_position = r.pos) := by
  have hnone : (greedy_dispatch gd).1 = none → (greedy_dispatch gd).2 = gd := by
    rcases dispatch_cases gd with ⟨_, _, h⟩ | ⟨u, us, _, _, h⟩ | ⟨d, ds, _, _, h⟩
    · rw [h]; exact fun _ => rfl
    · rw [h]; exact fun hn => (by cases hn)
    · rw [h]; exact fun hn => (by cases hn)
  refine ⟨fun rq => add_head gd rq, fun _ _ => rfl, fun hn => by rw [hnone hn], ?_⟩
  intro op hop
  cases op with
  | add rq => exact absurd (add_head gd rq) hop
  | merged rq next => exact absurd rfl hop
  | dispatch =>
    refine ⟨rfl, ?_⟩
    rcases dispatch_cases gd with ⟨_, _, h⟩ | ⟨u, us, _, _, h⟩ | ⟨d, ds, _, _, h⟩
    · exact absurd (show (step gd .dispatch).head_position = gd.head_position by
        show (greedy_dispatch gd).2.head_position = _
        rw [h]) hop
    · exact ⟨u, by rw [h], by show (greedy_dispatch gd).2.head_position = _; rw [h]⟩
    · exact ⟨d, by rw [h], by show (greedy_dispatch gd).2.head_position = _; rw [h]⟩

theorem head_changes_only_on_dispatch_witness :
    (∀ rq, (greedy_add_request ⟨[⟨1, 7⟩], [⟨2, 3⟩], 5⟩ rq).head_position
      = (⟨[⟨1, 7⟩], [⟨2, 3⟩], 5⟩ : greedy_data).head_position) ∧
    (∀ rq next, (greedy_merged_requests ⟨[⟨1, 7⟩], [⟨2, 3⟩], 5⟩ rq next).head_position
      = (⟨[⟨1, 7⟩], [⟨2, 3⟩], 5⟩ : greedy_data).head_position) ∧
    ((greedy_dispatch ⟨[⟨1, 7⟩], [⟨2, 3⟩], 5⟩).1 = none →
      (greedy_dispatch ⟨[⟨1, 7⟩], [⟨2, 3⟩], 5⟩).2.head_position
        = (⟨[⟨1, 7⟩], [⟨2, 3⟩], 5⟩ : greedy_data).head_position) ∧
    (∀ op, (step ⟨[⟨1, 7⟩], [⟨2, 3⟩], 5⟩ op).head_position
        ≠ (⟨[⟨1, 7⟩], [⟨2, 3⟩], 5⟩ : greedy_data).head_position →
      op = .dispatch ∧ ∃ r, (greedy_dispatch ⟨[⟨1, 7⟩], [⟨2, 3⟩], 5⟩).1 = some r ∧
        (step ⟨[⟨1, 7⟩], [⟨2, 3⟩], 5⟩ op).head_position = r.pos) :=
  head_changes_only_on_dispatch ⟨[⟨1, 7⟩], [⟨2, 3⟩], 5⟩

/-- Claim C14: `greedy_exit_queue` completes normally exactly when both queues are
empty; with the upstream or the downstream queue non-empty it hits a `BUG_ON`. -/
theorem exit_requires_empty (gd : greedy_data) :
    (greedy_exit_queue gd = .freed
      ↔ gd.upstream_queue = [] ∧ gd.downstream_queue = []) ∧
    (gd.upstream_queue ≠ [] ∨ gd.downstream_queue ≠ [] → greedy_exit_queue gd = .bug) := by
  unfold greedy_exit_queue
  rcases list_nil_or_cons gd.upstream_queue with hu | ⟨u, us, hu⟩
  · rcases list_nil_or_cons gd.downstream_queue with hd | ⟨d, ds, hd⟩
    · simp [hu, hd]
    · simp [hu, hd]
  · simp [hu]

theorem exit_requires_empty_witness :
    (greedy_exit_queue ⟨[], [⟨2, 3⟩], 5⟩ = .freed
      ↔ (⟨[], [⟨2, 3⟩], 5⟩ : greedy_data).upstream_queue = []
        ∧ (⟨[], [⟨2, 3⟩], 5⟩ : greedy_data).downstream_queue = []) ∧
    ((⟨[], [⟨2, 3⟩], 5⟩ : greedy_data).upstream_queue ≠ []
        ∨ (⟨[], [⟨2, 3⟩], 5⟩ : greedy_data).downstream_queue ≠ [] →
      greedy_exit_queue ⟨[], [⟨2, 3⟩], 5⟩ = .bug) :=
  exit_requires_empty ⟨[], [⟨2, 3⟩], 5⟩

/-- Claim C15: from head position 100 with both queues empty, adding 150, 120, 80
and 50 gives the forward queue `[120, 150]` and the backward queue `[80, 50]`;
five dispatches then return 120, 150, 80, 50 and none, the head position being
120, 150, 80 and 50 after the four successful ones. -/
theorem example_scenario :
    [(⟨1, 150⟩ : Request), ⟨2, 120⟩, ⟨3, 80⟩, ⟨4, 50⟩].foldl greedy_add_request ⟨[], [], 100⟩
      = ⟨[⟨2, 120⟩, ⟨1, 150⟩], [⟨3, 80⟩, ⟨4, 50⟩], 100⟩ ∧
    (dispatch_n 5 ⟨[⟨2, 120⟩, ⟨1, 150⟩], [⟨3, 80⟩, ⟨4, 50⟩], 100⟩).1
      = [some ⟨2, 120⟩, some ⟨1, 150⟩, some ⟨3, 80⟩, some ⟨4, 50⟩, none] ∧
    (dispatch_n 1 ⟨[⟨2, 120⟩, ⟨1, 150⟩], [⟨3, 80⟩, ⟨4, 50⟩], 100⟩).2
      = ⟨[⟨1, 150⟩], [⟨3, 80⟩, ⟨4, 50⟩], 120⟩ ∧
    (dispatch_n 2 ⟨[⟨2, 120⟩, ⟨1, 150⟩], [⟨3, 80⟩, ⟨4, 50⟩], 100⟩).2
      = ⟨[], [⟨3, 80⟩, ⟨4, 50⟩], 150⟩ ∧
    (dispatch_n 3 ⟨[⟨2, 120⟩, ⟨1, 150⟩], [⟨3, 80⟩, ⟨4, 50⟩], 100⟩).2
      = ⟨[], [⟨4, 50⟩], 80⟩ ∧
    (dispatch_n 4 ⟨[⟨2, 120⟩, ⟨1, 150⟩], [⟨3, 80⟩, ⟨4, 50⟩], 100⟩).2
      = ⟨[], [], 50⟩ ∧
    (dispatch_n 5 ⟨[⟨2, 120⟩, ⟨1, 150⟩], [⟨3, 80⟩, ⟨4, 50⟩], 100⟩).2
      = ⟨[], [], 50⟩ := by
  decide

/-- Claim C16: in every reachable state each queue is non-decreasing in the
distance of its entries from the current head position, so the front of each
queue is the entry of that queue nearest to the current head. -/
theorem sorted_from_current_head (ops : List Op) (hok : okOps greedy_init_queue ops) :
    (run greedy_init_queue ops).upstream_queue.Pairwise
      (fun a b => seek a.pos (run greedy_init_queue ops).head_position ≤ seek b.pos (run greedy_init_queue ops).head_position) ∧
    (run greedy_init_queue ops).downstream_queue.Pairwise
      (fun a b => seek a.pos (run greedy_init_queue ops).head_position ≤ seek b.pos (run greedy_init_queue ops).head_position) ∧
    (∀ u us, (run greedy_init_queue ops).upstream_queue = u :: us → ∀ q ∈ (run greedy_init_queue ops).upstream_queue,
      seek u.pos (run greedy_init_queue ops).head_position ≤ seek q.pos (run greedy_init_queue ops).head_position) ∧
    (∀ d ds, (run greedy_init_queue ops).downstream_queue = d :: ds → ∀ q ∈ (run greedy_init_queue ops).downstream_queue,
      seek d.pos (run greedy_init_queue ops).head_position ≤ seek q.pos (run greedy_init_queue ops).head_position) := by
  have ho := ordered_reachable ops hok
  have hu := seek_sorted_up _ ho
  have hd := seek_sorted_down _ ho
  refine ⟨hu, hd, ?_, ?_⟩
  · intro u us hq q hmem
    rw [hq] at hu hmem
    rcases List.mem_cons.mp hmem with h | h
    · rw [h]
    · exact (List.pairwise_cons.mp hu).1 q h
  · intro d ds hq q hmem
    rw [hq] at hd hmem
    rcases List.mem_cons.mp hmem with h | h
    · rw [h]
    · exact (List.pairwise_cons.mp hd).1 q h

theorem sorted_from_current_head_witness :
    (run greedy_init_queue [.add ⟨1, 100⟩, .add ⟨2, 90⟩, .dispatch, .add ⟨3, 101⟩, .add ⟨4, 70⟩]).upstream_queue.Pairwise
      (fun a b => seek a.pos (run greedy_init_queue [.add ⟨1, 100⟩, .add ⟨2, 90⟩, .dispatch, .add ⟨3, 101⟩, .add ⟨4, 70⟩]).head_position ≤ seek b.pos (run greedy_init_queue [.add ⟨1, 100⟩, .add ⟨2, 90⟩, .dispatch, .add ⟨3, 101⟩, .add ⟨4, 70⟩]).head_position) ∧
    (run greedy_init_queue [.add ⟨1, 100⟩, .add ⟨2, 90⟩, .dispatch, .add ⟨3, 101⟩, .add ⟨4, 70⟩]).downstream_queue.Pairwise
      (fun a b => seek a.pos (run greedy_init_queue [.add ⟨1, 100⟩, .add ⟨2, 90⟩, .dispatch, .add ⟨3, 101⟩, .add ⟨4, 70⟩]).head_position ≤ seek b.pos (run greedy_init_queue [.add ⟨1, 100⟩, .add ⟨2, 90⟩, .dispatch, .add ⟨3, 101⟩, .add ⟨4, 70⟩]).head_position) ∧
    (∀ u us, (run greedy_init_queue [.add ⟨1, 100⟩, .add ⟨2, 90⟩, .dispatch, .add ⟨3, 101⟩, .add ⟨4, 70⟩]).upstream_queue = u :: us → ∀ q ∈ (run greedy_init_queue [.add ⟨1, 100⟩, .add ⟨2, 90⟩, .dispatch, .add ⟨3, 101⟩, .add ⟨4, 70⟩]).upstream_queue,
      seek u.pos (run greedy_init_queue [.add ⟨1, 100⟩, .add ⟨2, 90⟩, .dispatch, .add ⟨3, 101⟩, .add ⟨4, 70⟩]).head_position ≤ seek q.pos (run greedy_init_queue [.add ⟨1, 100⟩, .add ⟨2, 90⟩, .dispatch, .add ⟨3, 101⟩, .add ⟨4, 70⟩]).head_position) ∧
    (∀ d ds, (run greedy_init_queue [.add ⟨1, 100⟩, .add ⟨2, 90⟩, .dispatch, .add ⟨3, 101⟩, .add ⟨4, 70⟩]).downstream_queue = d :: ds → ∀ q ∈ (run greedy_init_queue [.add ⟨1, 100⟩, .add ⟨2, 90⟩, .dispatch, .add ⟨3, 101⟩, .add ⟨4, 70⟩]).downstream_queue,
      seek d.pos (run greedy_init_queue [.add ⟨1, 100⟩, .add ⟨2, 90⟩, .dispatch, .add ⟨3, 101⟩, .add ⟨4, 70⟩]).head_position ≤ seek q.pos (run greedy_init_queue [.add ⟨1, 100⟩, .add ⟨2, 90⟩, .dispatch, .add ⟨3, 101⟩, .add ⟨4, 70⟩]).head_position) :=
  sorted_from_current_head [.add ⟨1, 100⟩, .add ⟨2, 90⟩, .dispatch, .add ⟨3, 101⟩, .add ⟨4, 70⟩] (by decide)

/-- Claim C17: in every reachable state every upstream entry lies at or above the
head position and every downstream entry at or below it, so the `sector_t`
subtractions of `greedy_dispatch` and of the scan of `greedy_add_request` do not
wrap: each equals the true non-negative difference. -/
theorem subtractions_do_not_wrap (ops : List Op) (hok : okOps greedy_init_queue ops) :
    (∀ u ∈ (run greedy_init_queue ops).upstream_queue, (run greedy_init_queue ops).head_position ≤ u.pos ∧
      (sector_sub u.pos (run greedy_init_queue ops).head_position : Int) = (u.pos : Int) - ((run greedy_init_queue ops).head_position : Int)) ∧
    (∀ d ∈ (run greedy_init_queue ops).downstream_queue, d.pos ≤ (run greedy_init_queue ops).head_position ∧
      (sector_sub (run greedy_init_queue ops).head_position d.pos : Int) = ((run greedy_init_queue ops).head_position : Int) - (d.pos : Int)) ∧
    (∀ rq : Request, rq.pos < SECTOR_MOD →
      ((run greedy_init_queue ops).head_position < rq.pos →
        (sector_sub rq.pos (run greedy_init_queue ops).head_position : Int)
          = (rq.pos : Int) - ((run greedy_init_queue ops).head_position : Int)) ∧
      (rq.pos ≤ (run greedy_init_queue ops).head_position →
        (sector_sub (run greedy_init_queue ops).head_position rq.pos : Int)
          = ((run greedy_init_queue ops).head_position : Int) - (rq.pos : Int))) := by
  have ho := ordered_reachable ops hok
  refine ⟨fun u hu => ?_, fun d hd => ?_, fun rq hrq => ⟨fun h => ?_, fun h => ?_⟩⟩
  · have hb := ho.up_ge u hu
    refine ⟨hb.1, ?_⟩
    rw [sector_sub_eq _ _ hb.1 hb.2]
    omega
  · have hb := ho.down_le d hd
    refine ⟨hb, ?_⟩
    rw [sector_sub_eq _ _ hb ho.head_lt]
    omega
  · rw [sector_sub_eq _ _ (Nat.le_of_lt h) hrq]
    omega
  · rw [sector_sub_eq _ _ h ho.head_lt]
    omega

theorem subtractions_do_not_wrap_witness :
    (∀ u ∈ (run greedy_init_queue [.add ⟨1, 100⟩, .add ⟨2, 90⟩, .dispatch, .add ⟨3, 101⟩, .add ⟨4, 70⟩]).upstream_queue, (run greedy_init_queue [.add ⟨1, 100⟩, .add ⟨2, 90⟩, .dispatch, .add ⟨3, 101⟩, .add ⟨4, 70⟩]).head_position ≤ u.pos ∧
      (sector_sub u.pos (run greedy_init_queue [.add ⟨1, 100⟩, .add ⟨2, 90⟩, .dispatch, .add ⟨3, 101⟩, .add ⟨4, 70⟩]).head_position : Int)
        = (u.pos : Int) - ((run greedy_init_queue [.add ⟨1, 100⟩, .add ⟨2, 90⟩, .dispatch, .add ⟨3, 101⟩, .add ⟨4, 70⟩]).head_position : Int)) ∧
    (∀ d ∈ (run greedy_init_queue [.add ⟨1, 100⟩, .add ⟨2, 90⟩, .dispatch, .add ⟨3, 101⟩, .add ⟨4, 70⟩]).downstream_queue, d.pos ≤ (run greedy_init_queue [.add ⟨1, 100⟩, .add ⟨2, 90⟩, .dispatch, .add ⟨3, 101⟩, .add ⟨4, 70⟩]).head_position ∧
      (sector_sub (run greedy_init_queue [.add ⟨1, 100⟩, .add ⟨2, 90⟩, .dispatch, .add ⟨3, 101⟩, .add ⟨4, 70⟩]).head_position d.pos : Int)
        = ((run greedy_init_queue [.add ⟨1, 100⟩, .add ⟨2, 90⟩, .dispatch, .add ⟨3, 101⟩, .add ⟨4, 70⟩]).head_position : Int) - (d.pos : Int)) ∧
    (∀ rq : Request, rq.pos < SECTOR_MOD →
      ((run greedy_init_queue [.add ⟨1, 100⟩, .add ⟨2, 90⟩, .dispatch, .add ⟨3, 101⟩, .add ⟨4, 70⟩]).head_position < rq.pos →
        (sector_sub rq.pos (run greedy_init_queue [.add ⟨1, 100⟩, .add ⟨2, 90⟩, .dispatch, .add ⟨3, 101⟩, .add ⟨4, 70⟩]).head_position : Int)
          = (rq.pos : Int) - ((run greedy_init_queue [.add ⟨1, 100⟩, .add ⟨2, 90⟩, .dispatch, .add ⟨3, 101⟩, .add ⟨4, 70⟩]).head_position : Int)) ∧
      (rq.pos ≤ (run greedy_init_queue [.add ⟨1, 100⟩, .add ⟨2, 90⟩, .dispatch, .add ⟨3, 101⟩, .add ⟨4, 70⟩]).head_position →
        (sector_sub (run greedy_init_queue [.add ⟨1, 100⟩, .add ⟨2, 90⟩, .dispatch, .add ⟨3, 101⟩, .add ⟨4, 70⟩]).head_position rq.pos : Int)
          = ((run greedy_init_queue [.add ⟨1, 100⟩, .add ⟨2, 90⟩, .dispatch, .add ⟨3, 101⟩, .add ⟨4, 70⟩]).head_position : Int) - (rq.pos : Int))) :=
  subtractions_do_not_wrap [.add ⟨1, 100⟩, .add ⟨2, 90⟩, .dispatch, .add ⟨3, 101⟩, .add ⟨4, 70⟩] (by decide)

/-! ## Draining the queues -/

theorem dispatch_n_drains (n : Nat) (gd : greedy_data) (hn : (queued gd).length = n) :
    ∃ rs : List Request, (dispatch_n n gd).1 = rs.map some ∧ rs.Perm (queued gd) ∧
      (dispatch_n n gd).2.upstream_queue = [] ∧
      (dispatch_n n gd).2.downstream_queue = [] := by
  induction n generalizing gd with
  | zero =>
    have hq : queued gd = [] := List.length_eq_zero.mp hn
    unfold queued at hq
    have hh := List.append_eq_nil.mp hq
    exact ⟨[], rfl, by rw [show queued gd = [] from hq], hh.1, hh.2⟩
  | succ n ih =>
    rcases dispatch_cases gd with ⟨hu, hd, _⟩ | ⟨u, us, hu, _, h⟩ | ⟨d, ds, hd, _, h⟩
    · unfold queued at hn
      rw [hu, hd] at hn
      cases hn
    · have hlen : (queued (greedy_dispatch gd).2).length = n := by
        rw [h]
        unfold queued at hn ⊢
        rw [hu] at hn
        simp only [List.cons_append, List.length_cons] at hn
        exact Nat.succ.inj hn
      rcases ih (greedy_dispatch gd).2 hlen with ⟨rs, h1, h2, h3, h4⟩
      refine ⟨u :: rs, ?_, ?_, h3, h4⟩
      · show (greedy_dispatch gd).1 :: (dispatch_n n (greedy_dispatch gd).2).1 = _
        rw [h1, h]
        rfl
      · rw [h] at h2
        unfold queued at h2 ⊢
        rw [hu]
        exact List.Perm.cons u h2
    · have hlen : (queued (greedy_dispatch gd).2).length = n := by
        rw [h]
        unfold queued at hn ⊢
        rw [hd] at hn
        simp only [List.length_append, List.length_cons] at hn ⊢
        omega
      rcases ih (greedy_dispatch gd).2 hlen with ⟨rs, h1, h2, h3, h4⟩
      refine ⟨d :: rs, ?_, ?_, h3, h4⟩
      · show (greedy_dispatch gd).1 :: (dispatch_n n (greedy_dispatch gd).2).1 = _
        rw [h1, h]
        rfl
      · rw [h] at h2
        unfold queued at h2 ⊢
        rw [hd]
        exact (List.Perm.cons d h2).trans List.perm_middle.symm

/-- Claim C20: in every reachable state holding `n` queued requests, `n`
consecutive dispatches all return a request, the returned requests are the
queued requests, each exactly once, both queues are empty afterwards, and one
more dispatch returns none. -/
theorem dispatch_drains_queues (ops : List Op) (hok : okOps greedy_init_queue ops) :
    ∃ rs : List Request,
      (dispatch_n (queued (run greedy_init_queue ops)).length (run greedy_init_queue ops)).1 = rs.map some ∧
      rs.Perm (queued (run greedy_init_queue ops)) ∧ (rs.map Request.id).Nodup ∧
      (dispatch_n (queued (run greedy_init_queue ops)).length (run greedy_init_queue ops)).2.upstream_queue = [] ∧
      (dispatch_n (queued (run greedy_init_queue ops)).length (run greedy_init_queue ops)).2.downstream_queue = [] ∧
      (greedy_dispatch (dispatch_n (queued (run greedy_init_queue ops)).length (run greedy_init_queue ops)).2).1 = none := by
  rcases dispatch_n_drains _ (run greedy_init_queue ops) rfl with ⟨rs, h1, h2, h3, h4⟩
  have he := exclusive_run ops _ exclusive_init hok
  refine ⟨rs, h1, h2, ?_, h3, h4, ?_⟩
  · exact ((h2.map Request.id).nodup_iff).mpr he
  · rw [dispatch_empty _ h3 h4]

theorem dispatch_drains_queues_witness :
    ∃ rs : List Request,
      (dispatch_n (queued (run greedy_init_queue [.add ⟨1, 100⟩, .add ⟨2, 90⟩, .dispatch, .add ⟨3, 101⟩, .add ⟨4, 70⟩])).length (run greedy_init_queue [.add ⟨1, 100⟩, .add ⟨2, 90⟩, .dispatch, .add ⟨3, 101⟩, .add ⟨4, 70⟩])).1 = rs.map some ∧
      rs.Perm (queued (run greedy_init_queue [.add ⟨1, 100⟩, .add ⟨2, 90⟩, .dispatch, .add ⟨3, 101⟩, .add ⟨4, 70⟩])) ∧ (rs.map Request.id).Nodup ∧
      (dispatch_n (queued (run greedy_init_queue [.add ⟨1, 100⟩, .add ⟨2, 90⟩, .dispatch, .add ⟨3, 101⟩, .add ⟨4, 70⟩])).length (run greedy_init_queue [.add ⟨1, 100⟩, .add ⟨2, 90⟩, .dispatch, .add ⟨3, 101⟩, .add ⟨4, 70⟩])).2.upstream_queue = [] ∧
      (dispatch_n (queued (run greedy_init_queue [.add ⟨1, 100⟩, .add ⟨2, 90⟩, .dispatch, .add ⟨3, 101⟩, .add ⟨4, 70⟩])).length (run greedy_init_queue [.add ⟨1, 100⟩, .add ⟨2, 90⟩, .dispatch, .add ⟨3, 101⟩, .add ⟨4, 70⟩])).2.downstream_queue = [] ∧
      (greedy_dispatch (dispatch_n (queued (run greedy_init_queue [.add ⟨1, 100⟩, .add ⟨2, 90⟩, .dispatch, .add ⟨3, 101⟩, .add ⟨4, 70⟩])).length (run greedy_init_queue [.add ⟨1, 100⟩, .add ⟨2, 90⟩, .dispatch, .add ⟨3, 101⟩, .add ⟨4, 70⟩])).2).1 = none :=
  dispatch_drains_queues [.add ⟨1, 100⟩, .add ⟨2, 90⟩, .dispatch, .add ⟨3, 101⟩, .add ⟨4, 70⟩] (by decide)

/-! ## Requests with equal targets leave in the order they came -/

theorem excl_front_up (gd : greedy_data) (he : Exclusive gd) (u : Request)
    (us : List Request) (hu : gd.upstream_queue = u :: us) :
    u ∉ us ++ gd.downstream_queue := by
  unfold Exclusive queued at he
  rw [hu, List.cons_append, List.map_cons] at he
  exact fun h => (List.nodup_cons.mp he).1 (List.mem_map_of_mem Request.id h)

theorem excl_front_down (gd : greedy_data) (he : Exclusive gd) (d : Request)
    (ds : List Request) (hd : gd.downstream_queue = d :: ds) :
    d ∉ gd.upstream_queue ++ ds := by
  unfold Exclusive queued at he
  rw [hd] at he
  have hp : (gd.upstream_queue ++ d :: ds).Perm (d :: (gd.upstream_queue ++ ds)) :=
    List.perm_middle
  have he' := ((hp.map Request.id).nodup_iff).mp he
  rw [List.map_cons] at he'
  exact fun h => (List.nodup_cons.mp he').1 (List.mem_map_of_mem Request.id h)

theorem excl_disjoint (gd : greedy_data) (he : Exclusive gd) (x : Request)
    (hu : x ∈ gd.upstream_queue) : x ∉ gd.downstream_queue := by
  unfold Exclusive queued at he
  rw [List.map_append] at he
  exact fun hd => (List.nodup_append.mp he).2.2 (List.mem_map_of_mem Request.id hu)
    (List.mem_map_of_mem Request.id hd)

theorem sublist_list_add_before (stop : Request → Bool) (rq : Request) (l : List Request) :
    l.Sublist (list_add_before stop rq l) := by
  rw [list_add_before_split]
  have h := (List.Sublist.refl (l.takeWhile (fun x => !stop x))).append
    (List.sublist_cons_self rq (l.dropWhile (fun x => !stop x)))
  rwa [List.takeWhile_append_dropWhile] at h

theorem sublist_add (gd : greedy_data) (rq : Request) :
    gd.upstream_queue.Sublist (greedy_add_request gd rq).upstream_queue ∧
    gd.downstream_queue.Sublist (greedy_add_request gd rq).downstream_queue := by
  by_cases h : gd.head_position < rq.pos
  · rw [add_up gd rq h]
    exact ⟨sublist_list_add_before _ rq _, List.Sublist.refl _⟩
  · rw [add_down gd rq (Nat.not_lt.mp h)]
    exact ⟨List.Sublist.refl _, sublist_list_add_before _ rq _⟩

theorem pair_sublist_insert (head : Nat) (A B : Request) (l : List Request)
    (hs : l.Pairwise (fun a b => seek a.pos head ≤ seek b.pos head))
    (hA : A ∈ l) (hpos : A.pos = B.pos) :
    List.Sublist [A, B] (insert_by_distance head B l) := by
  unfold insert_by_distance
  have hmem : A ∈ scan_passed head B l := by
    have hsplit : scan_passed head B l ++ scan_rest head B l = l :=
      List.takeWhile_append_dropWhile _ _
    rw [← hsplit] at hA
    rcases List.mem_append.mp hA with h | h
    · exact h
    · have hgt : seek B.pos head < seek A.pos head :=
        dropWhile_all_gt (fun e => seek e.pos head) (seek B.pos head) l hs A h
      rw [hpos] at hgt
      exact absurd hgt (Nat.lt_irrefl _)
  exact (List.singleton_sublist.mpr hmem).append
    ((List.cons_sublist_cons).mpr (List.nil_sublist _))

theorem ahead_after_add (gd : greedy_data) (A B : Request) (ho : Ordered gd)
    (hB : B.pos < SECTOR_MOD) (hA : A ∈ queued gd) (hpos : A.pos = B.pos) :
    ahead_of A B (greedy_add_request gd B) := by
  by_cases h : gd.head_position < B.pos
  · have hAu : A ∈ gd.upstream_queue := by
      rcases List.mem_append.mp hA with hx | hx
      · exact hx
      · have := ho.down_le A hx
        omega
    refine Or.inl ?_
    rw [add_up_eq_insert gd B ho hB h]
    exact pair_sublist_insert _ A B _ (seek_sorted_up gd ho) hAu hpos
  · have h' : B.pos ≤ gd.head_position := Nat.not_lt.mp h
    rcases List.mem_append.mp hA with hx | hx
    · refine Or.inr (Or.inr ⟨?_, ?_⟩)
      · rw [add_down gd B h']; exact hx
      · rw [add_down gd B h']
        exact (mem_list_add_before _ B B _).mpr (Or.inl rfl)
    · refine Or.inr (Or.inl ?_)
      rw [add_down_eq_insert gd B ho h']
      exact pair_sublist_insert _ A B _ (seek_sorted_down gd ho) hx hpos

theorem dispatch_result_queued (gd : greedy_data) (r : Request)
    (hr : (greedy_dispatch gd).1 = some r) : r ∈ queued gd := by
  rcases dispatch_cases gd with ⟨_, _, h⟩ | ⟨u, us, hu, _, h⟩ | ⟨d, ds, hd, _, h⟩
  · rw [h] at hr; cases hr
  · rw [h] at hr
    have : u = r := Option.some.inj hr
    subst this
    exact List.mem_append_left _ (by rw [hu]; exact List.mem_cons_self _ _)
  · rw [h] at hr
    have : d = r := Option.some.inj hr
    subst this
    exact List.mem_append_right _ (by rw [hd]; exact List.mem_cons_self _ _)

theorem pair_sublist_tail (A B x : Request) (xs : List Request)
    (h : List.Sublist [A, B] (x :: xs)) (hne : A ≠ x) : List.Sublist [A, B] xs := by
  rcases List.sublist_cons_iff.mp h with h1 | ⟨r, h1, _⟩
  · exact h1
  · exact absurd (List.cons.inj h1).1 hne

theorem ahead_after_dispatch (gd : greedy_data) (A B : Request) (he : Exclusive gd)
    (hA : A ∈ queued (greedy_dispatch gd).2) (hB : B ∈ queued (greedy_dispatch gd).2)
    (ha : ahead_of A B gd) : ahead_of A B (greedy_dispatch gd).2 := by
  rcases dispatch_cases gd with ⟨_, _, h⟩ | ⟨u, us, hu, _, h⟩ | ⟨d, ds, hd, _, h⟩
  · rw [h]; exact ha
  · rw [h] at hA hB ⊢
    have hfront := excl_front_up gd he u us hu
    have hAu : A ≠ u := fun e => hfront (e ▸ hA)
    rcases ha with h1 | h1 | ⟨h1, h2⟩
    · rw [hu] at h1
      exact Or.inl (pair_sublist_tail A B u us h1 hAu)
    · exact Or.inr (Or.inl h1)
    · rw [hu] at h1
      rcases List.mem_cons.mp h1 with h3 | h3
      · exact absurd h3 hAu
      · exact Or.inr (Or.inr ⟨h3, h2⟩)
  · rw [h] at hA hB ⊢
    have hfront := excl_front_down gd he d ds hd
    have hAd : A ≠ d := fun e => hfront (e ▸ hA)
    have hBd : B ≠ d := fun e => hfront (e ▸ hB)
    rcases ha with h1 | h1 | ⟨h1, h2⟩
    · exact Or.inl h1
    · rw [hd] at h1
      exact Or.inr (Or.inl (pair_sublist_tail A B d ds h1 hAd))
    · rw [hd] at h2
      rcases List.mem_cons.mp h2 with h3 | h3
      · exact absurd h3 hBd
      · exact Or.inr (Or.inr ⟨h1, h3⟩)

theorem ahead_after_merged (gd : greedy_data) (A B rq next : Request)
    (hA : A ∈ queued (greedy_merged_requests gd rq next))
    (hB : B ∈ queued (greedy_merged_requests gd rq next))
    (ha : ahead_of A B gd) : ahead_of A B (greedy_merged_requests gd rq next) := by
  rw [queued_merged_filter] at hA hB
  have hAk : decide (A.id ≠ next.id) = true := (List.mem_filter.mp hA).2
  have hBk : decide (B.id ≠ next.id) = true := (List.mem_filter.mp hB).2
  have hpair : [A, B].filter (fun x => decide (x.id ≠ next.id)) = [A, B] := by
    rw [List.filter_eq_self]
    intro x hx
    rcases List.mem_cons.mp hx with h | h
    · rw [h]; exact hAk
    · rw [List.mem_singleton.mp h]; exact hBk
  rcases ha with h1 | h1 | ⟨h1, h2⟩
  · refine Or.inl ?_
    have := h1.filter (fun x => decide (x.id ≠ next.id))
    rwa [hpair] at this
  · refine Or.inr (Or.inl ?_)
    have := h1.filter (fun x => decide (x.id ≠ next.id))
    rwa [hpair] at this
  · exact Or.inr (Or.inr ⟨List.mem_filter.mpr ⟨h1, hAk⟩, List.mem_filter.mpr ⟨h2, hBk⟩⟩)

theorem ahead_after_step (gd : greedy_data) (A B : Request) (op : Op) (ho : Ordered gd)
    (he : Exclusive gd) (hok : okOp gd op) (hpos : A.pos = B.pos) (hA : A ∈ queued gd)
    (hA' : A ∈ queued (step gd op)) (ha : B ∈ queued gd → ahead_of A B gd)
    (hB' : B ∈ queued (step gd op)) : ahead_of A B (step gd op) := by
  cases op with
  | add C =>
    by_cases hCB : C = B
    · subst hCB
      exact ahead_after_add gd A C ho hok.1 hA hpos
    · have hBq : B ∈ queued gd := by
        have := (queued_add_perm gd C).subset hB'
        rcases List.mem_cons.mp this with h | h
        · exact absurd h.symm hCB
        · exact h
      have hs := sublist_add gd C
      rcases ha hBq with h1 | h1 | ⟨h1, h2⟩
      · exact Or.inl (h1.trans hs.1)
      · exact Or.inr (Or.inl (h1.trans hs.2))
      · exact Or.inr (Or.inr ⟨hs.1.subset h1, hs.2.subset h2⟩)
  | dispatch =>
    exact ahead_after_dispatch gd A B he hA' hB'
      (ha ((queued_dispatch_sublist gd).subset hB'))
  | merged rq next =>
    exact ahead_after_merged gd A B rq next hA' hB'
      (ha ((queued_merged_sublist gd rq next).subset hB'))

theorem ahead_not_dispatched (gd : greedy_data) (A B : Request) (ho : Ordered gd)
    (he : Exclusive gd) (hpos : A.pos = B.pos) (ha : ahead_of A B gd) :
    (greedy_dispatch gd).1 ≠ some B := by
  intro hr
  rcases dispatch_cases gd with ⟨_, _, h⟩ | ⟨u, us, hu, _, h⟩ | ⟨d, ds, hd, hup, h⟩
  · rw [h] at hr; cases hr
  · rw [h] at hr
    have hub : u = B := Option.some.inj hr
    subst hub
    have hfront := excl_front_up gd he u us hu
    rcases ha with h1 | h1 | ⟨_, h2⟩
    · rw [hu] at h1
      rcases List.sublist_cons_iff.mp h1 with h3 | ⟨r, h3, h4⟩
      · exact hfront (List.mem_append_left _ (h3.subset (by simp)))
      · have hr' : r = [u] := (List.cons.inj h3).2.symm
        rw [hr'] at h4
        exact hfront (List.mem_append_left _ (List.singleton_sublist.mp h4))
    · exact hfront (List.mem_append_right _ (h1.subset (by simp)))
    · exact hfront (List.mem_append_right _ h2)
  · rw [h] at hr
    have hdb : d = B := Option.some.inj hr
    subst hdb
    have hfront := excl_front_down gd he d ds hd
    rcases ha with h1 | h1 | ⟨h1, _⟩
    · exact hfront (List.mem_append_left _ (h1.subset (by simp)))
    · rw [hd] at h1
      rcases List.sublist_cons_iff.mp h1 with h3 | ⟨r, h3, h4⟩
      · exact hfront (List.mem_append_right _ (h3.subset (by simp)))
      · have hr' : r = [d] := (List.cons.inj h3).2.symm
        rw [hr'] at h4
        exact hfront (List.mem_append_right _ (List.singleton_sublist.mp h4))
    · rcases hup with hup | ⟨u, us, hu, hlt⟩
      · rw [hup] at h1; cases h1
      · have humem : u ∈ gd.upstream_queue := by rw [hu]; exact List.mem_cons_self _ _
        have hub := ho.up_ge u humem
        have hdmem : d ∈ gd.downstream_queue := by rw [hd]; exact List.mem_cons_self _ _
        have hdb := ho.down_le d hdmem
        have huA := front_le_up gd ho u us hu A h1
        rw [sector_sub_eq _ _ hdb ho.head_lt, sector_sub_eq _ _ hub.1 hub.2] at hlt
        omega

theorem run_append (gd : greedy_data) (l1 l2 : List Op) :
    run gd (l1 ++ l2) = run (run gd l1) l2 := by
  unfold run
  rw [List.foldl_append]

theorem okOps_append (l1 l2 : List Op) (gd : greedy_data) :
    okOps gd (l1 ++ l2) ↔ okOps gd l1 ∧ okOps (run gd l1) l2 := by
  induction l1 generalizing gd with
  | nil => simp [okOps, run]
  | cons op ops ih =>
    show okOp gd op ∧ okOps (step gd op) (ops ++ l2) ↔
      (okOp gd op ∧ okOps (step gd op) ops) ∧ okOps (run (step gd op) ops) l2
    rw [ih (step gd op)]
    tauto

theorem stays_queued_head (A : Request) (gd : greedy_data) (ops : List Op)
    (h : stays_queued A gd ops) : A ∈ queued gd := by
  cases ops with
  | nil => exact h
  | cons op ops => exact h.1

theorem ahead_run (post : List Op) (gd : greedy_data) (A B : Request) (ho : Ordered gd)
    (he : Exclusive gd) (hok : okOps gd post) (hpos : A.pos = B.pos)
    (hs : stays_queued A gd post) (ha : B ∈ queued gd → ahead_of A B gd) :
    (greedy_dispatch (run gd post)).1 ≠ some B := by
  induction post generalizing gd with
  | nil =>
    intro hr
    exact ahead_not_dispatched gd A B ho he hpos (ha (dispatch_result_queued gd B hr)) hr
  | cons op ops ih =>
    have hA' := stays_queued_head A (step gd op) ops hs.2
    exact ih (step gd op) (ordered_step gd op ho hok.1) (exclusive_step gd op he hok.1)
      hok.2 hs.2 (fun hB' => ahead_after_step gd A B op ho he hok.1 hpos hs.1 hA' ha hB')

/-- Claim C19: along every sequence of adds of unqueued requests, dispatches and
merge notifications from the initial state, if request `A` is queued when
request `B` with the same target position is added, then as long as `A` stays
queued no dispatch returns `B`, also when the two sit in different queues. -/
theorem equal_targets_fifo (pre post : List Op) (A B : Request)
    (hok : okOps greedy_init_queue (pre ++ .add B :: post))
    (hA : A ∈ queued (run greedy_init_queue pre))
    (hpos : A.pos = B.pos)
    (hs : stays_queued A (run greedy_init_queue (pre ++ [.add B])) post) :
    (greedy_dispatch (run greedy_init_queue (pre ++ .add B :: post))).1 ≠ some B := by
  have hsplit : pre ++ .add B :: post = (pre ++ [.add B]) ++ post := by simp
  rw [hsplit] at hok ⊢
  rw [run_append]
  have hok1 := (okOps_append (pre ++ [.add B]) post greedy_init_queue).mp hok
  have hok2 := (okOps_append pre [.add B] greedy_init_queue).mp hok1.1
  have ho := ordered_reachable pre hok2.1
  have hB : okOp (run greedy_init_queue pre) (.add B) := hok2.2.1
  have hstep : run greedy_init_queue (pre ++ [.add B])
      = greedy_add_request (run greedy_init_queue pre) B := by
    rw [run_append]; rfl
  refine ahead_run post _ A B (ordered_reachable _ hok1.1)
    (exclusive_run _ _ exclusive_init hok1.1) hok1.2 hpos hs ?_
  intro _
  rw [hstep]
  exact ahead_after_add _ A B ho hB.1 hA hpos

theorem equal_targets_fifo_witness :
    (greedy_dispatch (run greedy_init_queue
        ([.add ⟨7, 150⟩, .add ⟨1, 150⟩, .dispatch] ++ .add ⟨2, 150⟩ :: [.add ⟨3, 140⟩]))).1
      ≠ some ⟨2, 150⟩ :=
  equal_targets_fifo [.add ⟨7, 150⟩, .add ⟨1, 150⟩, .dispatch] [.add ⟨3, 140⟩]
    ⟨1, 150⟩ ⟨2, 150⟩ (by decide) (by decide) (by decide) (by decide)

/-! ## Neighbours on the linked representation -/

theorem chain_append (m : Mem) (l1 l2 : List Request) (a h : Node)
    (hc : chain m a (l1 ++ l2) h) : chain m (last_node a l1) l2 h := by
  induction l1 generalizing a with
  | nil => exact hc
  | cons r rs ih => exact ih (.queuelist r) hc.2.2

theorem chain_adjacent (m : Mem) (l1 l2 : List Request) (X Y : Request) (a h : Node)
    (hc : chain m a (l1 ++ X :: Y :: l2) h) :
    greedy_latter_request m X = some Y ∧ greedy_former_request m Y = some X := by
  have h1 := chain_append m l1 (X :: Y :: l2) a h hc
  have hXY : m.next (.queuelist X) = .queuelist Y := h1.2.2.1
  have hYX : m.prev (.queuelist Y) = .queuelist X := h1.2.2.2.1
  unfold greedy_latter_request greedy_former_request
  rw [hXY, hYX]
  exact ⟨rfl, rfl⟩

theorem chain_last (m : Mem) (l1 : List Request) (X : Request) (a h : Node)
    (hc : chain m a (l1 ++ [X]) h) : m.next (.queuelist X) = h :=
  (chain_append m l1 [X] a h hc).2.2.1

/-- Claim C12: in every state whose pointers spell the two queues, for requests
`X` and `Y` adjacent in the same queue with `X` immediately before `Y`,
`greedy_latter_request` of `X` is `Y` and `greedy_former_request` of `Y` is `X`;
for the first entry of either queue `greedy_former_request` gives none and for
the last entry of either queue `greedy_latter_request` gives none. -/
theorem neighbour_round_trip (m : Mem) (gd : greedy_data) (hl : Linked m gd)
    (X Y : Request) (l1 l2 : List Request) :
    ((gd.upstream_queue = l1 ++ X :: Y :: l2 ∨ gd.downstream_queue = l1 ++ X :: Y :: l2) →
      greedy_latter_request m X = some Y ∧ greedy_former_request m Y = some X) ∧
    ((gd.upstream_queue = X :: l2 ∨ gd.downstream_queue = X :: l2) →
      greedy_former_request m X = none) ∧
    ((gd.upstream_queue = l1 ++ [X] ∨ gd.downstream_queue = l1 ++ [X]) →
      greedy_latter_request m X = none) := by
  have hu := hl.up
  have hd := hl.down
  refine ⟨fun h => ?_, fun h => ?_, fun h => ?_⟩
  · rcases h with h | h
    · rw [h] at hu; exact chain_adjacent m l1 l2 X Y _ _ hu
    · rw [h] at hd; exact chain_adjacent m l1 l2 X Y _ _ hd
  · unfold greedy_former_request
    rcases h with h | h
    · rw [h] at hu
      have hp : m.prev (.queuelist X) = .upstream_queue := hu.2.1
      rw [hp]
    · rw [h] at hd
      have hp : m.prev (.queuelist X) = .downstream_queue := hd.2.1
      rw [hp]
  · unfold greedy_latter_request
    rcases h with h | h
    · rw [h] at hu
      rw [chain_last m l1 X _ _ hu]
    · rw [h] at hd
      rw [chain_last m l1 X _ _ hd]

theorem neighbour_round_trip_witness :
    (((run greedy_init_queue [.add ⟨1, 100⟩, .add ⟨2, 90⟩, .dispatch, .add ⟨3, 101⟩, .add ⟨4, 70⟩, .add ⟨5, 95⟩]).upstream_queue = [⟨5, 95⟩] ++ ⟨1, 100⟩ :: ⟨3, 101⟩ :: []
        ∨ (run greedy_init_queue [.add ⟨1, 100⟩, .add ⟨2, 90⟩, .dispatch, .add ⟨3, 101⟩, .add ⟨4, 70⟩, .add ⟨5, 95⟩]).downstream_queue = [⟨5, 95⟩] ++ ⟨1, 100⟩ :: ⟨3, 101⟩ :: []) →
      greedy_latter_request ((reached [.add ⟨1, 100⟩, .add ⟨2, 90⟩, .dispatch, .add ⟨3, 101⟩, .add ⟨4, 70⟩, .add ⟨5, 95⟩]).getD fresh_mem) ⟨1, 100⟩ = some ⟨3, 101⟩ ∧
      greedy_former_request ((reached [.add ⟨1, 100⟩, .add ⟨2, 90⟩, .dispatch, .add ⟨3, 101⟩, .add ⟨4, 70⟩, .add ⟨5, 95⟩]).getD fresh_mem) ⟨3, 101⟩ = some ⟨1, 100⟩) ∧
    (((run greedy_init_queue [.add ⟨1, 100⟩, .add ⟨2, 90⟩, .dispatch, .add ⟨3, 101⟩, .add ⟨4, 70⟩, .add ⟨5, 95⟩]).upstream_queue = ⟨1, 100⟩ :: [] ∨ (run greedy_init_queue [.add ⟨1, 100⟩, .add ⟨2, 90⟩, .dispatch, .add ⟨3, 101⟩, .add ⟨4, 70⟩, .add ⟨5, 95⟩]).downstream_queue = ⟨1, 100⟩ :: []) →
      greedy_former_request ((reached [.add ⟨1, 100⟩, .add ⟨2, 90⟩, .dispatch, .add ⟨3, 101⟩, .add ⟨4, 70⟩, .add ⟨5, 95⟩]).getD fresh_mem) ⟨1, 100⟩ = none) ∧
    (((run greedy_init_queue [.add ⟨1, 100⟩, .add ⟨2, 90⟩, .dispatch, .add ⟨3, 101⟩, .add ⟨4, 70⟩, .add ⟨5, 95⟩]).upstream_queue = [⟨5, 95⟩] ++ [⟨1, 100⟩]
        ∨ (run greedy_init_queue [.add ⟨1, 100⟩, .add ⟨2, 90⟩, .dispatch, .add ⟨3, 101⟩, .add ⟨4, 70⟩, .add ⟨5, 95⟩]).downstream_queue = [⟨5, 95⟩] ++ [⟨1, 100⟩]) →
      greedy_latter_request ((reached [.add ⟨1, 100⟩, .add ⟨2, 90⟩, .dispatch, .add ⟨3, 101⟩, .add ⟨4, 70⟩, .add ⟨5, 95⟩]).getD fresh_mem) ⟨1, 100⟩ = none) :=
  neighbour_round_trip ((reached [.add ⟨1, 100⟩, .add ⟨2, 90⟩, .dispatch, .add ⟨3, 101⟩, .add ⟨4, 70⟩, .add ⟨5, 95⟩]).getD fresh_mem) (run greedy_init_queue [.add ⟨1, 100⟩, .add ⟨2, 90⟩, .dispatch, .add ⟨3, 101⟩, .add ⟨4, 70⟩, .add ⟨5, 95⟩]) (by decide) ⟨1, 100⟩ ⟨3, 101⟩ [⟨5, 95⟩] []

/-- Claim C18 as stated fails: after `add 100`, `add 120` and a merge notification
that absorbs request 100, that request is in neither queue, the pointers spell
the two queues, and yet `greedy_former_request` and `greedy_latter_request` of
the removed request both return the request itself instead of none. -/
theorem removed_request_has_neighbour :
    (reached [.add ⟨1, 100⟩, .add ⟨2, 120⟩, .merged ⟨2, 120⟩ ⟨1, 100⟩]).isSome = true ∧
    Linked ((reached [.add ⟨1, 100⟩, .add ⟨2, 120⟩, .merged ⟨2, 120⟩ ⟨1, 100⟩]).getD fresh_mem) (run greedy_init_queue [.add ⟨1, 100⟩, .add ⟨2, 120⟩, .merged ⟨2, 120⟩ ⟨1, 100⟩]) ∧
    (⟨1, 100⟩ : Request) ∉ queued (run greedy_init_queue [.add ⟨1, 100⟩, .add ⟨2, 120⟩, .merged ⟨2, 120⟩ ⟨1, 100⟩]) ∧
    greedy_former_request ((reached [.add ⟨1, 100⟩, .add ⟨2, 120⟩, .merged ⟨2, 120⟩ ⟨1, 100⟩]).getD fresh_mem) ⟨1, 100⟩ = some ⟨1, 100⟩ ∧
    greedy_latter_request ((reached [.add ⟨1, 100⟩, .add ⟨2, 120⟩, .merged ⟨2, 120⟩ ⟨1, 100⟩]).getD fresh_mem) ⟨1, 100⟩ = some ⟨1, 100⟩ ∧
    greedy_former_request ((reached [.add ⟨1, 100⟩, .add ⟨2, 120⟩, .merged ⟨2, 120⟩ ⟨1, 100⟩]).getD fresh_mem) ⟨1, 100⟩ ≠ none := by
  decide

/-- Claim C18, amended: for every state, a request that has just been removed by
a merge notification is its own neighbour: `greedy_former_request` and
`greedy_latter_request` return that request itself, not none.  Both functions
only read pointers. -/
theorem removed_request_is_own_neighbour (m : Mem) (rq next : Request) :
    greedy_former_request (Links.greedy_merged_requests m rq next) next = some next ∧
    greedy_latter_request (Links.greedy_merged_requests m rq next) next = some next := by
  unfold greedy_former_request greedy_latter_request Links.greedy_merged_requests
    Links.list_del_init INIT_LIST_HEAD set_prev set_next
  simp

theorem removed_request_is_own_neighbour_witness :
    greedy_former_request (Links.greedy_merged_requests
        ((reached [.add ⟨1, 100⟩, .add ⟨2, 120⟩]).getD fresh_mem) ⟨2, 120⟩ ⟨1, 100⟩) ⟨1, 100⟩
      = some ⟨1, 100⟩ ∧
    greedy_latter_request (Links.greedy_merged_requests
        ((reached [.add ⟨1, 100⟩, .add ⟨2, 120⟩]).getD fresh_mem) ⟨2, 120⟩ ⟨1, 100⟩) ⟨1, 100⟩
      = some ⟨1, 100⟩ :=
  removed_request_is_own_neighbour _ ⟨2, 120⟩ ⟨1, 100⟩

/-! ## The pointers follow the lists -/

theorem list_add_tail_next (m : Mem) (nw it x : Node) :
    (list_add_tail m nw it).next x
      = if x = m.prev it then nw else if x = nw then it else m.next x := rfl

theorem list_add_tail_prev (m : Mem) (nw it x : Node) :
    (list_add_tail m nw it).prev x
      = if x = nw then m.prev it else if x = it then nw else m.prev x := rfl

theorem list_del_init_next (m : Mem) (e x : Node) :
    (Links.list_del_init m e).next x
      = if x = e then e else if x = m.prev e then m.next e else m.next x := rfl

theorem list_del_init_prev (m : Mem) (e x : Node) :
    (Links.list_del_init m e).prev x
      = if x = e then e else if x = m.next e then m.prev e else m.prev x := rfl

theorem chain_frame (m m1 : Mem) (l : List Request) (a h : Node) (hc : chain m a l h)
    (hna : m1.next a = m.next a)
    (hn : ∀ r ∈ l, m1.next (.queuelist r) = m.next (.queuelist r))
    (hp : ∀ r ∈ l, m1.prev (.queuelist r) = m.prev (.queuelist r))
    (hph : m1.prev h = m.prev h) : chain m1 a l h := by
  induction l generalizing a with
  | nil => exact ⟨hna.trans hc.1, hph.trans hc.2⟩
  | cons r rs ih =>
    refine ⟨hna.trans hc.1, (hp r (List.mem_cons_self _ _)).trans hc.2.1, ?_⟩
    exact ih (.queuelist r) hc.2.2 (hn r (List.mem_cons_self _ _))
      (fun x hx => hn x (List.mem_cons_of_mem _ hx))
      (fun x hx => hp x (List.mem_cons_of_mem _ hx))

theorem last_node_cases (a : Node) (l : List Request) :
    last_node a l = a ∨ ∃ r ∈ l, last_node a l = .queuelist r := by
  induction l generalizing a with
  | nil => exact Or.inl rfl
  | cons x xs ih =>
    rcases ih (.queuelist x) with h | ⟨r, hr, h⟩
    · exact Or.inr ⟨x, List.mem_cons_self _ _, h⟩
    · exact Or.inr ⟨r, List.mem_cons_of_mem _ hr, h⟩

theorem chain_next_start (m : Mem) (l : List Request) (a h : Node) (hc : chain m a l h) :
    m.next a = first_node l h := by
  cases l with
  | nil => exact hc.1
  | cons r rs => exact hc.1

theorem chain_prev_first (m : Mem) (l1 l2 : List Request) (a h : Node)
    (hc : chain m a (l1 ++ l2) h) : m.prev (first_node l2 h) = last_node a l1 := by
  have h1 := chain_append m l1 l2 a h hc
  cases l2 with
  | nil => exact h1.2
  | cons r rs => exact h1.2.1

theorem first_node_cases (l : List Request) (h : Node) :
    first_node l h = h ∨ ∃ r ∈ l, first_node l h = .queuelist r := by
  cases l with
  | nil => exact Or.inl rfl
  | cons x xs => exact Or.inr ⟨x, List.mem_cons_self _ _, rfl⟩

theorem chain_add (m : Mem) (new : Request) (l1 l2 : List Request) (a h : Node)
    (hc : chain m a (l1 ++ l2) h) (hnd : (l1 ++ l2).Nodup) (hnew : new ∉ l1 ++ l2)
    (ha : ∀ r ∈ l1 ++ l2, a ≠ .queuelist r) (ha1 : a ≠ .queuelist new)
    (hh : ∀ r ∈ l1 ++ l2, h ≠ .queuelist r) (hh1 : h ≠ .queuelist new) :
    chain (list_add_tail m (.queuelist new) (first_node l2 h)) a (l1 ++ new :: l2) h := by
  have hp := chain_prev_first m l1 l2 a h hc
  induction l1 generalizing a with
  | nil =>
    have hpa : m.prev (first_node l2 h) = a := hp
    refine ⟨?_, ?_, ?_⟩
    · rw [list_add_tail_next, hpa, if_pos rfl]
    · rw [list_add_tail_prev, if_pos rfl, hpa]
    · cases l2 with
      | nil =>
        refine ⟨?_, ?_⟩
        · rw [list_add_tail_next, hpa, if_neg (Ne.symm ha1), if_pos rfl]
          rfl
        · rw [list_add_tail_prev, if_neg hh1]
          exact if_pos rfl
      | cons y ys =>
        have hy : y ∈ ([] : List Request) ++ y :: ys := List.mem_cons_self _ _
        have hynew : (Node.queuelist y) ≠ .queuelist new := by
          intro e
          exact hnew (by rw [← Node.queuelist.inj e]; exact hy)
        have hnd' := List.nodup_cons.mp (show (y :: ys).Nodup from hnd)
        refine ⟨?_, ?_, ?_⟩
        · rw [list_add_tail_next, hpa, if_neg (Ne.symm ha1), if_pos rfl]
          rfl
        · rw [list_add_tail_prev, if_neg hynew]
          exact if_pos rfl
        · have hc' : chain m (.queuelist y) ys h := hc.2.2
          refine chain_frame m _ ys _ h hc' ?_ ?_ ?_ ?_
          · rw [list_add_tail_next, hpa, if_neg (Ne.symm (ha y hy)), if_neg hynew]
          · intro r hr
            have hr' : r ∈ ([] : List Request) ++ y :: ys := List.mem_cons_of_mem _ hr
            have hrnew : (Node.queuelist r) ≠ .queuelist new := by
              intro e
              exact hnew (by rw [← Node.queuelist.inj e]; exact hr')
            rw [list_add_tail_next, hpa, if_neg (Ne.symm (ha r hr')), if_neg hrnew]
          · intro r hr
            have hr' : r ∈ ([] : List Request) ++ y :: ys := List.mem_cons_of_mem _ hr
            have hrnew : (Node.queuelist r) ≠ .queuelist new := by
              intro e
              exact hnew (by rw [← Node.queuelist.inj e]; exact hr')
            have hry : (Node.queuelist r) ≠ first_node (y :: ys) h := by
              intro e
              have : r = y := Node.queuelist.inj e
              exact hnd'.1 (this ▸ hr)
            rw [list_add_tail_prev, if_neg hrnew, if_neg hry]
          · have hhy : h ≠ first_node (y :: ys) h := hh y hy
            rw [list_add_tail_prev, if_neg hh1, if_neg hhy]
  | cons x xs ih =>
    have hx : x ∈ (x :: xs) ++ l2 := List.mem_cons_self _ _
    have hnd' := List.nodup_cons.mp (show (x :: (xs ++ l2)).Nodup from hnd)
    have hxnew : (Node.queuelist x) ≠ .queuelist new := by
      intro e
      exact hnew (by rw [← Node.queuelist.inj e]; exact hx)
    have hc' : chain m (.queuelist x) (xs ++ l2) h := hc.2.2
    have hp' : m.prev (first_node l2 h) = last_node (.queuelist x) xs := hp
    refine ⟨?_, ?_, ?_⟩
    · have hap : a ≠ m.prev (first_node l2 h) := by
        rw [hp']
        rcases last_node_cases (.queuelist x) xs with e | ⟨r, hr, e⟩
        · rw [e]; exact ha x hx
        · rw [e]
          exact ha r (List.mem_cons_of_mem _ (List.mem_append_left _ hr))
      rw [list_add_tail_next, if_neg hap, if_neg ha1]
      exact hc.1
    · have hxit : (Node.queuelist x) ≠ first_node l2 h := by
        rcases first_node_cases l2 h with e | ⟨r, hr, e⟩
        · rw [e]; exact Ne.symm (hh x hx)
        · rw [e]
          intro e2
          have : x = r := Node.queuelist.inj e2
          exact hnd'.1 (this ▸ List.mem_append_right _ hr)
      rw [list_add_tail_prev, if_neg hxnew, if_neg hxit]
      exact hc.2.1
    · exact ih (.queuelist x) hc' hnd'.2
        (fun hm => hnew (List.mem_cons_of_mem _ hm))
        (fun r hr e => by
          have : x = r := Node.queuelist.inj e
          exact hnd'.1 (this ▸ hr))
        hxnew (fun r hr => hh r (List.mem_cons_of_mem _ hr)) hp'

theorem chain_next_mid (m : Mem) (l1 l2 : List Request) (r : Request) (a h : Node)
    (hc : chain m a (l1 ++ r :: l2) h) : m.next (.queuelist r) = first_node l2 h := by
  have h1 := chain_append m l1 (r :: l2) a h hc
  exact chain_next_start m l2 _ h h1.2.2

theorem chain_prev_mid (m : Mem) (l1 l2 : List Request) (r : Request) (a h : Node)
    (hc : chain m a (l1 ++ r :: l2) h) : m.prev (.queuelist r) = last_node a l1 :=
  chain_prev_first m l1 (r :: l2) a h hc

theorem chain_del (m : Mem) (r : Request) (l1 l2 : List Request) (a h : Node)
    (hc : chain m a (l1 ++ r :: l2) h) (hnd : (l1 ++ r :: l2).Nodup)
    (ha : ∀ x ∈ l1 ++ r :: l2, a ≠ .queuelist x)
    (hh : ∀ x ∈ l1 ++ r :: l2, h ≠ .queuelist x) :
    chain (Links.list_del_init m (.queuelist r)) a (l1 ++ l2) h := by
  have hn := chain_next_mid m l1 l2 r a h hc
  have hp := chain_prev_mid m l1 l2 r a h hc
  induction l1 generalizing a with
  | nil =>
    have hpa : m.prev (.queuelist r) = a := hp
    have hr : r ∈ ([] : List Request) ++ r :: l2 := List.mem_cons_self _ _
    have hnd' := List.nodup_cons.mp (show (r :: l2).Nodup from hnd)
    have har := ha r hr
    cases l2 with
    | nil =>
      have hnh : m.next (.queuelist r) = h := hn
      refine ⟨?_, ?_⟩
      · rw [list_del_init_next, if_neg har, hpa, if_pos rfl, hnh]
      · rw [list_del_init_prev, if_neg (hh r hr), hnh, if_pos rfl, hpa]
    | cons y ys =>
      have hny : m.next (.queuelist r) = .queuelist y := hn
      have hy : y ∈ ([] : List Request) ++ r :: y :: ys :=
        List.mem_cons_of_mem _ (List.mem_cons_self _ _)
      have hyr : (Node.queuelist y) ≠ .queuelist r := by
        intro e
        have : y = r := Node.queuelist.inj e
        exact hnd'.1 (this ▸ List.mem_cons_self _ _)
      have hnd2 := List.nodup_cons.mp hnd'.2
      have hc' : chain m (.queuelist y) ys h := hc.2.2.2.2
      refine ⟨?_, ?_, ?_⟩
      · rw [list_del_init_next, if_neg har, hpa, if_pos rfl, hny]
      · rw [list_del_init_prev, if_neg hyr, hny, if_pos rfl, hpa]
      · refine chain_frame m _ ys _ h hc' ?_ ?_ ?_ ?_
        · rw [list_del_init_next, if_neg hyr, hpa, if_neg (Ne.symm (ha y hy))]
        · intro x hx
          have hx' : x ∈ ([] : List Request) ++ r :: y :: ys :=
            List.mem_cons_of_mem _ (List.mem_cons_of_mem _ hx)
          have hxr : (Node.queuelist x) ≠ .queuelist r := by
            intro e
            have : x = r := Node.queuelist.inj e
            exact hnd'.1 (this ▸ List.mem_cons_of_mem _ hx)
          rw [list_del_init_next, if_neg hxr, hpa, if_neg (Ne.symm (ha x hx'))]
        · intro x hx
          have hxr : (Node.queuelist x) ≠ .queuelist r := by
            intro e
            have : x = r := Node.queuelist.inj e
            exact hnd'.1 (this ▸ List.mem_cons_of_mem _ hx)
          have hxy : (Node.queuelist x) ≠ .queuelist y := by
            intro e
            have : x = y := Node.queuelist.inj e
            exact hnd2.1 (this ▸ hx)
          rw [list_del_init_prev, if_neg hxr, hny, if_neg hxy]
        · rw [list_del_init_prev, if_neg (hh r hr), hny, if_neg (hh y hy)]
  | cons x xs ih =>
    have hx : x ∈ (x :: xs) ++ r :: l2 := List.mem_cons_self _ _
    have hnd' := List.nodup_cons.mp (show (x :: (xs ++ r :: l2)).Nodup from hnd)
    have hr : r ∈ xs ++ r :: l2 := List.mem_append_right _ (List.mem_cons_self _ _)
    have hxr : (Node.queuelist x) ≠ .queuelist r := by
      intro e
      have : x = r := Node.queuelist.inj e
      exact hnd'.1 (this ▸ hr)
    have hc' : chain m (.queuelist x) (xs ++ r :: l2) h := hc.2.2
    have hp' : m.prev (.queuelist r) = last_node (.queuelist x) xs := hp
    refine ⟨?_, ?_, ?_⟩
    · have hap : a ≠ m.prev (.queuelist r) := by
        rw [hp']
        rcases last_node_cases (.queuelist x) xs with e | ⟨y, hy, e⟩
        · rw [e]; exact ha x hx
        · rw [e]
          exact ha y (List.mem_cons_of_mem _ (List.mem_append_left _ hy))
      rw [list_del_init_next, if_neg (ha r (List.mem_cons_of_mem _ hr)), if_neg hap]
      exact hc.1
    · have hxn : (Node.queuelist x) ≠ m.next (.queuelist r) := by
        rw [hn]
        rcases first_node_cases l2 h with e | ⟨y, hy, e⟩
        · rw [e]; exact Ne.symm (hh x hx)
        · rw [e]
          intro e2
          have : x = y := Node.queuelist.inj e2
          exact hnd'.1 (this ▸ List.mem_append_right _ (List.mem_cons_of_mem _ hy))
      rw [list_del_init_prev, if_neg hxr, if_neg hxn]
      exact hc.2.1
    · exact ih (.queuelist x) hc' hnd'.2
        (fun y hy e => by
          have : x = y := Node.queuelist.inj e
          exact hnd'.1 (this ▸ hy))
        (fun y hy => hh y (List.mem_cons_of_mem _ hy)) hp'

theorem list_add_tail_untouched (m : Mem) (nw it x : Node) (h1 : x ≠ nw) (h2 : x ≠ it)
    (h3 : x ≠ m.prev it) :
    (list_add_tail m nw it).next x = m.next x ∧ (list_add_tail m nw it).prev x = m.prev x := by
  rw [list_add_tail_next, list_add_tail_prev, if_neg h3, if_neg h1, if_neg h1, if_neg h2]
  exact ⟨rfl, rfl⟩

theorem list_del_init_untouched (m : Mem) (e x : Node) (h1 : x ≠ e) (h2 : x ≠ m.prev e)
    (h3 : x ≠ m.next e) :
    (Links.list_del_init m e).next x = m.next x
      ∧ (Links.list_del_init m e).prev x = m.prev x := by
  rw [list_del_init_next, list_del_init_prev, if_neg h1, if_neg h2, if_neg h1, if_neg h3]
  exact ⟨rfl, rfl⟩

theorem list_for_each_finds (m : Mem) (stop : Request → Bool) (l : List Request) (a h : Node)
    (hc : chain m a l h) (hh : ∀ r ∈ l, h ≠ .queuelist r) (fuel : Nat)
    (hf : l.length < fuel) :
    Links.list_for_each m h stop fuel (first_node l h)
      = some (first_node (l.dropWhile (fun x => !stop x)) h) := by
  induction l generalizing a fuel with
  | nil =>
    cases fuel with
    | zero => cases hf
    | succ f =>
      show (if h = h then some h else _) = _
      rw [if_pos rfl]
      rfl
  | cons r rs ih =>
    cases fuel with
    | zero => cases hf
    | succ f =>
      have hne : (Node.queuelist r) ≠ h := Ne.symm (hh r (List.mem_cons_self _ _))
      have hnext : m.next (.queuelist r) = first_node rs h :=
        chain_next_start m rs _ h hc.2.2
      show (if Node.queuelist r = h then some (Node.queuelist r)
        else if stop r then some (Node.queuelist r)
          else Links.list_for_each m h stop f (m.next (.queuelist r))) = _
      rw [if_neg hne]
      by_cases hs : stop r = true
      · rw [if_pos hs, List.dropWhile_cons]
        simp [hs, first_node]
      · rw [if_neg hs, hnext, List.dropWhile_cons]
        have hs' : stop r = false := by simpa using hs
        simp only [hs', Bool.not_false, if_true]
        exact ih (.queuelist r) hc.2.2 (fun x hx => hh x (List.mem_cons_of_mem _ hx)) f
          (Nat.lt_of_succ_lt_succ hf)

theorem first_entry_head (m : Mem) (l : List Request) (h : Node) (hc : chain m h l h)
    (hh : ∀ r ∈ l, h ≠ .queuelist r) : first_entry m h = l.head? := by
  unfold first_entry list_empty
  cases l with
  | nil =>
    have : m.next h = h := hc.1
    simp [this]
  | cons r rs =>
    have hn : m.next h = .queuelist r := hc.1
    have hne : (Node.queuelist r) ≠ h := Ne.symm (hh r (List.mem_cons_self _ _))
    simp [hn, hne]

theorem off_queue_first (x H : Node) (l : List Request) (hx : x ≠ H)
    (hl : ∀ r ∈ l, x ≠ .queuelist r) : x ≠ first_node l H := by
  rcases first_node_cases l H with e | ⟨r, hr, e⟩
  · rw [e]; exact hx
  · rw [e]; exact hl r hr

theorem off_queue_last (x H : Node) (l : List Request) (hx : x ≠ H)
    (hl : ∀ r ∈ l, x ≠ .queuelist r) : x ≠ last_node H l := by
  rcases last_node_cases H l with e | ⟨r, hr, e⟩
  · rw [e]; exact hx
  · rw [e]; exact hl r hr

/-- Linking a request into one queue: the scan ends at the node the list view
predicts, the queue then spells the list with the request inserted, and every
node off that queue keeps its pointers. -/
theorem link_insert (m : Mem) (H : Node) (l : List Request) (stop : Request → Bool)
    (rq : Request) (fuel : Nat) (hc : chain m H l H) (hH : ∀ r, H ≠ .queuelist r)
    (hnd : l.Nodup) (hnew : rq ∉ l) (hf : l.length < fuel) :
    ∃ it, Links.list_for_each m H stop fuel (m.next H) = some it ∧
      chain (list_add_tail m (.queuelist rq) it) H (list_add_before stop rq l) H ∧
      ∀ x, x ≠ H → x ≠ .queuelist rq → (∀ r ∈ l, x ≠ .queuelist r) →
        (list_add_tail m (.queuelist rq) it).next x = m.next x ∧
        (list_add_tail m (.queuelist rq) it).prev x = m.prev x := by
  have hsplit : l.takeWhile (fun x => !stop x) ++ l.dropWhile (fun x => !stop x) = l :=
    List.takeWhile_append_dropWhile _ _
  refine ⟨first_node (l.dropWhile (fun x => !stop x)) H, ?_, ?_, ?_⟩
  · rw [chain_next_start m l H H hc]
    exact list_for_each_finds m stop l H H hc (fun r _ => hH r) fuel hf
  · rw [list_add_before_split]
    have hc' : chain m H (l.takeWhile (fun x => !stop x) ++ l.dropWhile (fun x => !stop x)) H := by
      rw [hsplit]; exact hc
    exact chain_add m rq _ _ H H hc' (by rw [hsplit]; exact hnd) (by rw [hsplit]; exact hnew)
      (fun r _ => hH r) (hH rq) (fun r _ => hH r) (hH rq)
  · intro x hxH hxnew hxl
    have hc' : chain m H (l.takeWhile (fun x => !stop x) ++ l.dropWhile (fun x => !stop x)) H := by
      rw [hsplit]; exact hc
    have hp := chain_prev_first m _ _ H H hc'
    refine list_add_tail_untouched m _ _ x hxnew ?_ ?_
    · exact off_queue_first x H _ hxH
        (fun r hr => hxl r ((List.dropWhile_sublist _).subset hr))
    · rw [hp]
      exact off_queue_last x H _ hxH
        (fun r hr => hxl r ((List.takeWhile_sublist _).subset hr))

/-- Unlinking a queued request: the queue then spells the list without it, the
request's node points to itself, and every node off that queue keeps its
pointers. -/
theorem link_remove (m : Mem) (H : Node) (l1 l2 : List Request) (r : Request)
    (hc : chain m H (l1 ++ r :: l2) H) (hH : ∀ x, H ≠ .queuelist x)
    (hnd : (l1 ++ r :: l2).Nodup) :
    chain (Links.list_del_init m (.queuelist r)) H (l1 ++ l2) H ∧
    (Links.list_del_init m (.queuelist r)).next (.queuelist r) = .queuelist r ∧
    (Links.list_del_init m (.queuelist r)).prev (.queuelist r) = .queuelist r ∧
    ∀ x, x ≠ H → (∀ y ∈ l1 ++ r :: l2, x ≠ .queuelist y) →
      (Links.list_del_init m (.queuelist r)).next x = m.next x ∧
      (Links.list_del_init m (.queuelist r)).prev x = m.prev x := by
  refine ⟨chain_del m r l1 l2 H H hc hnd (fun x _ => hH x) (fun x _ => hH x), ?_, ?_, ?_⟩
  · rw [list_del_init_next, if_pos rfl]
  · rw [list_del_init_prev, if_pos rfl]
  · intro x hxH hxl
    have hr : r ∈ l1 ++ r :: l2 := List.mem_append_right _ (List.mem_cons_self _ _)
    refine list_del_init_untouched m _ x (hxl r hr) ?_ ?_
    · rw [chain_prev_mid m l1 l2 r H H hc]
      exact off_queue_last x H l1 hxH (fun y hy => hxl y (List.mem_append_left _ hy))
    · rw [chain_next_mid m l1 l2 r H H hc]
      exact off_queue_first x H l2 hxH
        (fun y hy => hxl y (List.mem_append_right _ (List.mem_cons_of_mem _ hy)))

theorem excl_values (gd : greedy_data) (he : Exclusive gd) :
    gd.upstream_queue.Nodup ∧ gd.downstream_queue.Nodup ∧
    ∀ x ∈ gd.upstream_queue, x ∉ gd.downstream_queue := by
  have h : (queued gd).Nodup := List.Nodup.of_map _ he
  unfold queued at h
  have h' := List.nodup_append.mp h
  exact ⟨h'.1, h'.2.1, fun x hu hd => h'.2.2 hu hd⟩

theorem not_queued_of_id (gd : greedy_data) (rq : Request)
    (h : rq.id ∉ (queued gd).map Request.id) : rq ∉ queued gd :=
  fun hm => h (List.mem_map_of_mem Request.id hm)

theorem mem_queued_add (gd : greedy_data) (rq r : Request) :
    r ∈ queued (greedy_add_request gd rq) ↔ r = rq ∨ r ∈ queued gd := by
  rw [(queued_add_perm gd rq).mem_iff, List.mem_cons]

theorem refines_add (fuel : Nat) (m : Mem) (gd : greedy_data) (rq : Request)
    (hr : Refines m gd) (hnew : rq.id ∉ (queued gd).map Request.id)
    (hf : (queued gd).length < fuel) :
    ∃ m1, Links.greedy_add_request fuel m rq = some m1 ∧
      Refines m1 (greedy_add_request gd rq) := by
  have hrq := not_queued_of_id gd rq hnew
  have hv := excl_values gd hr.excl
  have hhead := hr.linked.head
  have hlen : (queued gd).length = gd.upstream_queue.length + gd.downstream_queue.length := by
    unfold queued; exact List.length_append _ _
  have hloose : ∀ m1 : Mem, (∀ r, r ∉ queued gd → r ≠ rq →
      m1.next (.queuelist r) = m.next (.queuelist r) ∧
      m1.prev (.queuelist r) = m.prev (.queuelist r)) →
      Loose m1 (greedy_add_request gd rq) := by
    intro m1 h r hr'
    have h1 : r ≠ rq := fun e => hr' ((mem_queued_add gd rq r).mpr (Or.inl e))
    have h2 : r ∉ queued gd := fun e => hr' ((mem_queued_add gd rq r).mpr (Or.inr e))
    have h3 := h r h2 h1
    have h4 := hr.loose r h2
    exact ⟨h3.1.trans h4.1, h3.2.trans h4.2⟩
  by_cases h : gd.head_position < rq.pos
  · obtain ⟨it, hscan, hchain, hunt⟩ := link_insert m .upstream_queue gd.upstream_queue
      (fun it => decide (sector_sub rq.pos gd.head_position
        < sector_sub it.pos gd.head_position)) rq fuel hr.linked.up
      (fun r e => by cases e) hv.1 (fun hm => hrq (List.mem_append_left _ hm)) (by omega)
    refine ⟨list_add_tail m (.queuelist rq) it, ?_, ?_⟩
    · unfold Links.greedy_add_request
      simp only [hhead, h, gt_iff_lt, if_true, hscan]
    · rw [add_up gd rq h]
      refine ⟨⟨hchain, ?_, hhead⟩, ?_, ?_⟩
      · refine chain_frame m _ _ _ _ hr.linked.down ?_ ?_ ?_ ?_
        · exact (hunt .downstream_queue (by intro e; cases e) (by intro e; cases e)
            (fun r _ e => by cases e)).1
        · intro r hr'
          exact (hunt (.queuelist r) (by intro e; cases e)
            (fun e => hrq (Node.queuelist.inj e ▸ List.mem_append_right _ hr'))
            (fun y hy e => hv.2.2 y hy (Node.queuelist.inj e ▸ hr'))).1
        · intro r hr'
          exact (hunt (.queuelist r) (by intro e; cases e)
            (fun e => hrq (Node.queuelist.inj e ▸ List.mem_append_right _ hr'))
            (fun y hy e => hv.2.2 y hy (Node.queuelist.inj e ▸ hr'))).2
        · exact (hunt .downstream_queue (by intro e; cases e) (by intro e; cases e)
            (fun r _ e => by cases e)).2
      · have := hloose (list_add_tail m (.queuelist rq) it) (fun r hr1 hr2 =>
          hunt (.queuelist r) (by intro e; cases e) (fun e => hr2 (Node.queuelist.inj e))
            (fun y hy e => hr1 (Node.queuelist.inj e ▸ List.mem_append_left _ hy)))
        rwa [add_up gd rq h] at this
      · have := exclusive_add gd rq hr.excl hnew
        rwa [add_up gd rq h] at this
  · have h' : rq.pos ≤ gd.head_position := Nat.not_lt.mp h
    obtain ⟨it, hscan, hchain, hunt⟩ := link_insert m .downstream_queue gd.downstream_queue
      (fun it => decide (sector_sub gd.head_position rq.pos
        < sector_sub gd.head_position it.pos)) rq fuel hr.linked.down
      (fun r e => by cases e) hv.2.1 (fun hm => hrq (List.mem_append_right _ hm)) (by omega)
    refine ⟨list_add_tail m (.queuelist rq) it, ?_, ?_⟩
    · unfold Links.greedy_add_request
      simp only [hhead, h, gt_iff_lt, if_false, hscan]
    · rw [add_down gd rq h']
      refine ⟨⟨?_, hchain, hhead⟩, ?_, ?_⟩
      · refine chain_frame m _ _ _ _ hr.linked.up ?_ ?_ ?_ ?_
        · exact (hunt .upstream_queue (by intro e; cases e) (by intro e; cases e)
            (fun r _ e => by cases e)).1
        · intro r hr'
          exact (hunt (.queuelist r) (by intro e; cases e)
            (fun e => hrq (Node.queuelist.inj e ▸ List.mem_append_left _ hr'))
            (fun y hy e => hv.2.2 r hr' (Node.queuelist.inj e ▸ hy))).1
        · intro r hr'
          exact (hunt (.queuelist r) (by intro e; cases e)
            (fun e => hrq (Node.queuelist.inj e ▸ List.mem_append_left _ hr'))
            (fun y hy e => hv.2.2 r hr' (Node.queuelist.inj e ▸ hy))).2
        · exact (hunt .upstream_queue (by intro e; cases e) (by intro e; cases e)
            (fun r _ e => by cases e)).2
      · have := hloose (list_add_tail m (.queuelist rq) it) (fun r hr1 hr2 =>
          hunt (.queuelist r) (by intro e; cases e) (fun e => hr2 (Node.queuelist.inj e))
            (fun y hy e => hr1 (Node.queuelist.inj e ▸ List.mem_append_right _ hy)))
        rwa [add_down gd rq h'] at this
      · have := exclusive_add gd rq hr.excl hnew
        rwa [add_down gd rq h'] at this

theorem chain_set_head (m : Mem) (hp : Nat) (l : List Request) (a h : Node)
    (hc : chain m a l h) : chain { m with head_position := hp } a l h :=
  chain_frame m _ l a h hc rfl (fun _ _ => rfl) (fun _ _ => rfl) rfl

theorem refines_unlink_up (m : Mem) (gd : greedy_data) (r : Request) (l1 l2 : List Request)
    (hp : Nat) (hr : Refines m gd) (hu : gd.upstream_queue = l1 ++ r :: l2) :
    Refines { Links.list_del_init m (.queuelist r) with head_position := hp }
      { upstream_queue := l1 ++ l2, downstream_queue := gd.downstream_queue,
        head_position := hp } := by
  have hv := excl_values gd hr.excl
  have hup := hr.linked.up
  rw [hu] at hup
  have hnd : (l1 ++ r :: l2).Nodup := hu ▸ hv.1
  obtain ⟨hchain, hself1, hself2, hunt⟩ := link_remove m .upstream_queue l1 l2 r hup
    (fun x e => by cases e) hnd
  have hdown : ∀ d ∈ gd.downstream_queue, ∀ y ∈ l1 ++ r :: l2,
      (Node.queuelist d) ≠ .queuelist y := by
    intro d hd y hy e
    exact hv.2.2 y (hu ▸ hy) (Node.queuelist.inj e ▸ hd)
  refine ⟨⟨chain_set_head _ hp _ _ _ hchain, ?_, rfl⟩, ?_, ?_⟩
  · refine chain_frame m _ _ _ _ hr.linked.down ?_ ?_ ?_ ?_
    · exact (hunt .downstream_queue (by intro e; cases e) (fun y _ e => by cases e)).1
    · intro d hd
      exact (hunt (.queuelist d) (by intro e; cases e) (hdown d hd)).1
    · intro d hd
      exact (hunt (.queuelist d) (by intro e; cases e) (hdown d hd)).2
    · exact (hunt .downstream_queue (by intro e; cases e) (fun y _ e => by cases e)).2
  · intro x hx
    by_cases hxr : x = r
    · rw [hxr]; exact ⟨hself1, hself2⟩
    · have hxq : x ∉ queued gd := by
        intro hq
        apply hx
        unfold queued at hq ⊢
        rw [hu] at hq
        rcases List.mem_append.mp hq with h1 | h1
        · rcases List.mem_append.mp h1 with h2 | h2
          · exact List.mem_append_left _ (List.mem_append_left _ h2)
          · rcases List.mem_cons.mp h2 with h3 | h3
            · exact absurd h3 hxr
            · exact List.mem_append_left _ (List.mem_append_right _ h3)
        · exact List.mem_append_right _ h1
      have h1 := hunt (.queuelist x) (by intro e; cases e)
        (fun y hy e => hxq (Node.queuelist.inj e ▸ List.mem_append_left _ (hu ▸ hy)))
      have h2 := hr.loose x hxq
      exact ⟨h1.1.trans h2.1, h1.2.trans h2.2⟩
  · have he := hr.excl
    unfold Exclusive queued at he ⊢
    rw [hu] at he
    refine he.sublist (List.Sublist.map _ ?_)
    exact ((List.Sublist.refl l1).append (List.sublist_cons_self r l2)).append_right _

theorem refines_unlink_down (m : Mem) (gd : greedy_data) (r : Request)
    (l1 l2 : List Request) (hp : Nat) (hr : Refines m gd)
    (hd : gd.downstream_queue = l1 ++ r :: l2) :
    Refines { Links.list_del_init m (.queuelist r) with head_position := hp }
      { upstream_queue := gd.upstream_queue, downstream_queue := l1 ++ l2,
        head_position := hp } := by
  have hv := excl_values gd hr.excl
  have hdn := hr.linked.down
  rw [hd] at hdn
  have hnd : (l1 ++ r :: l2).Nodup := hd ▸ hv.2.1
  obtain ⟨hchain, hself1, hself2, hunt⟩ := link_remove m .downstream_queue l1 l2 r hdn
    (fun x e => by cases e) hnd
  have hup : ∀ u ∈ gd.upstream_queue, ∀ y ∈ l1 ++ r :: l2,
      (Node.queuelist u) ≠ .queuelist y := by
    intro u hu y hy e
    exact hv.2.2 u hu (Node.queuelist.inj e ▸ (hd ▸ hy))
  refine ⟨⟨?_, chain_set_head _ hp _ _ _ hchain, rfl⟩, ?_, ?_⟩
  · refine chain_frame m _ _ _ _ hr.linked.up ?_ ?_ ?_ ?_
    · exact (hunt .upstream_queue (by intro e; cases e) (fun y _ e => by cases e)).1
    · intro u hu
      exact (hunt (.queuelist u) (by intro e; cases e) (hup u hu)).1
    · intro u hu
      exact (hunt (.queuelist u) (by intro e; cases e) (hup u hu)).2
    · exact (hunt .upstream_queue (by intro e; cases e) (fun y _ e => by cases e)).2
  · intro x hx
    by_cases hxr : x = r
    · rw [hxr]; exact ⟨hself1, hself2⟩
    · have hxq : x ∉ queued gd := by
        intro hq
        apply hx
        unfold queued at hq ⊢
        rw [hd] at hq
        rcases List.mem_append.mp hq with h1 | h1
        · exact List.mem_append_left _ h1
        · rcases List.mem_append.mp h1 with h2 | h2
          · exact List.mem_append_right _ (List.mem_append_left _ h2)
          · rcases List.mem_cons.mp h2 with h3 | h3
            · exact absurd h3 hxr
            · exact List.mem_append_right _ (List.mem_append_right _ h3)
      have h1 := hunt (.queuelist x) (by intro e; cases e)
        (fun y hy e => hxq (Node.queuelist.inj e ▸ List.mem_append_right _ (hd ▸ hy)))
      have h2 := hr.loose x hxq
      exact ⟨h1.1.trans h2.1, h1.2.trans h2.2⟩
  · have he := hr.excl
    unfold Exclusive queued at he ⊢
    rw [hd] at he
    refine he.sublist (List.Sublist.map _ ?_)
    exact ((List.Sublist.refl l1).append (List.sublist_cons_self r l2)).append_left _

theorem refines_dispatch (m : Mem) (gd : greedy_data) (hr : Refines m gd) :
    (Links.greedy_dispatch m).1 = (greedy_dispatch gd).1 ∧
    Refines (Links.greedy_dispatch m).2 (greedy_dispatch gd).2 := by
  have hfu : first_entry m .upstream_queue = gd.upstream_queue.head? :=
    first_entry_head m _ _ hr.linked.up (fun r _ e => by cases e)
  have hfd : first_entry m .downstream_queue = gd.downstream_queue.head? :=
    first_entry_head m _ _ hr.linked.down (fun r _ e => by cases e)
  have hhead := hr.linked.head
  rcases dispatch_cases gd with ⟨hu, hd, h⟩ | ⟨u, us, hu, hdn, h⟩ | ⟨d, ds, hd, hup, h⟩
  · have hp : Links.greedy_dispatch m = (none, m) := by
      unfold Links.greedy_dispatch
      rw [hfu, hfd, hu, hd]
      rfl
    rw [hp, h]
    exact ⟨rfl, hr⟩
  · have hp : Links.greedy_dispatch m
        = (some u, { Links.list_del_init m (.queuelist u) with head_position := u.pos }) := by
      unfold Links.greedy_dispatch
      rw [hfu, hfd, hu, hhead]
      rcases hdn with hd | ⟨d, ds, hd, hge⟩
      · rw [hd]; rfl
      · rw [hd]
        simp only [List.head?_cons, if_neg hge]
    rw [hp, h]
    exact ⟨rfl, refines_unlink_up m gd u [] us u.pos hr hu⟩
  · have hp : Links.greedy_dispatch m
        = (some d, { Links.list_del_init m (.queuelist d) with head_position := d.pos }) := by
      unfold Links.greedy_dispatch
      rw [hfu, hfd, hd, hhead]
      rcases hup with hu | ⟨u, us, hu, hlt⟩
      · rw [hu]; rfl
      · rw [hu]
        simp only [List.head?_cons, if_pos hlt]
    rw [hp, h]
    exact ⟨rfl, refines_unlink_down m gd d [] ds d.pos hr hd⟩

theorem filter_id_absent (l : List Request) (r : Request)
    (h : r.id ∉ l.map Request.id) : list_del_init r l = l := by
  unfold list_del_init
  rw [List.filter_eq_self]
  intro a ha
  have : a.id ≠ r.id := fun he => h (he ▸ List.mem_map_of_mem Request.id ha)
  simpa using this

theorem filter_id_remove (l1 l2 : List Request) (r : Request)
    (hn : ((l1 ++ r :: l2).map Request.id).Nodup) :
    list_del_init r (l1 ++ r :: l2) = l1 ++ l2 := by
  rw [List.map_append, List.map_cons] at hn
  have h1 := List.nodup_append.mp hn
  have h2 := List.nodup_cons.mp h1.2.1
  have ha1 : r.id ∉ l1.map Request.id := fun hm => h1.2.2 hm (List.mem_cons_self _ _)
  have e1 := filter_id_absent l1 r ha1
  have e2 := filter_id_absent l2 r h2.1
  unfold list_del_init at e1 e2 ⊢
  rw [List.filter_append, e1, List.filter_cons_of_neg (by simp), e2]

theorem refines_merged (m : Mem) (gd : greedy_data) (rq next : Request)
    (hr : Refines m gd) (hok : okLink gd (.merged rq next)) :
    Refines (Links.greedy_merged_requests m rq next) (greedy_merged_requests gd rq next) := by
  have hhead := hr.linked.head
  have he := hr.excl
  unfold Exclusive queued at he
  rw [List.map_append] at he
  have happ := List.nodup_append.mp he
  have hset : ∀ r : Request, Links.list_del_init m (.queuelist r)
      = { Links.list_del_init m (.queuelist r) with head_position := gd.head_position } := by
    intro r
    rw [← hhead]
    rfl
  rcases hok with hq | hq
  · rcases List.mem_append.mp hq with hu | hd
    · obtain ⟨l1, l2, hl⟩ := List.append_of_mem hu
      have hup : list_del_init next gd.upstream_queue = l1 ++ l2 := by
        rw [hl]
        exact filter_id_remove l1 l2 next (hl ▸ happ.1)
      have hdn : list_del_init next gd.downstream_queue = gd.downstream_queue :=
        filter_id_absent _ next
          (fun hm => happ.2.2 (List.mem_map_of_mem Request.id hu) hm)
      unfold Links.greedy_merged_requests greedy_merged_requests
      rw [hup, hdn, hset next]
      exact refines_unlink_up m gd next l1 l2 gd.head_position hr hl
    · obtain ⟨l1, l2, hl⟩ := List.append_of_mem hd
      have hdn : list_del_init next gd.downstream_queue = l1 ++ l2 := by
        rw [hl]
        exact filter_id_remove l1 l2 next (hl ▸ happ.2.1)
      have hup : list_del_init next gd.upstream_queue = gd.upstream_queue :=
        filter_id_absent _ next
          (fun hm => happ.2.2 hm (List.mem_map_of_mem Request.id hd))
      unfold Links.greedy_merged_requests greedy_merged_requests
      rw [hup, hdn, hset next]
      exact refines_unlink_down m gd next l1 l2 gd.head_position hr hl
  · have hnq := not_queued_of_id gd next hq
    have hself := hr.loose next hnq
    have hup : list_del_init next gd.upstream_queue = gd.upstream_queue :=
      filter_id_absent _ next
        (fun hm => hq (by unfold queued; rw [List.map_append]; exact List.mem_append_left _ hm))
    have hdn : list_del_init next gd.downstream_queue = gd.downstream_queue :=
      filter_id_absent _ next
        (fun hm => hq (by unfold queued; rw [List.map_append]; exact List.mem_append_right _ hm))
    have hnx : ∀ x, (Links.list_del_init m (.queuelist next)).next x = m.next x := by
      intro x
      rw [list_del_init_next, hself.1, hself.2]
      by_cases hx : x = .queuelist next
      · rw [if_pos hx, hx, hself.1]
      · rw [if_neg hx, if_neg hx]
    have hpv : ∀ x, (Links.list_del_init m (.queuelist next)).prev x = m.prev x := by
      intro x
      rw [list_del_init_prev, hself.1, hself.2]
      by_cases hx : x = .queuelist next
      · rw [if_pos hx, hx, hself.2]
      · rw [if_neg hx, if_neg hx]
    unfold Links.greedy_merged_requests greedy_merged_requests
    rw [hup, hdn]
    refine ⟨⟨?_, ?_, hhead⟩, ?_, hr.excl⟩
    · exact chain_frame m _ _ _ _ hr.linked.up (hnx _) (fun r _ => hnx _) (fun r _ => hpv _)
        (hpv _)
    · exact chain_frame m _ _ _ _ hr.linked.down (hnx _) (fun r _ => hnx _)
        (fun r _ => hpv _) (hpv _)
    · intro r hrq
      have := hr.loose r hrq
      exact ⟨(hnx _).trans this.1, (hpv _).trans this.2⟩

theorem refines_init : Refines (Links.greedy_init_queue fresh_mem) greedy_init_queue := by
  refine ⟨by decide, ?_, exclusive_init⟩
  intro r _
  exact ⟨rfl, rfl⟩

theorem refines_run (fuel : Nat) (ops : List Op) (m : Mem) (gd : greedy_data)
    (hr : Refines m gd) (hok : okOps gd ops) (hlk : okLinks gd ops)
    (hf : (queued gd).length + ops.length < fuel) :
    ∃ m1, Links.run fuel m ops = some m1 ∧ Refines m1 (run gd ops) := by
  induction ops generalizing m gd with
  | nil => exact ⟨m, rfl, hr⟩
  | cons op ops ih =>
    rw [List.length_cons] at hf
    cases op with
    | add rq =>
      obtain ⟨m1, h1, h2⟩ := refines_add fuel m gd rq hr hok.1.2 (by omega)
      have hlen : (queued (greedy_add_request gd rq)).length = (queued gd).length + 1 := by
        rw [(queued_add_perm gd rq).length_eq, List.length_cons]
      obtain ⟨m2, h3, h4⟩ := ih m1 (greedy_add_request gd rq) h2 hok.2 hlk.2
        (by rw [hlen]; omega)
      refine ⟨m2, ?_, h4⟩
      show (match Links.step fuel m (.add rq) with
        | some m1 => Links.run fuel m1 ops
        | none => none) = some m2
      rw [show Links.step fuel m (.add rq) = some m1 from h1]
      exact h3
    | dispatch =>
      have h2 := (refines_dispatch m gd hr).2
      have hlen := (queued_dispatch_sublist gd).length_le
      obtain ⟨m2, h3, h4⟩ := ih (Links.greedy_dispatch m).2 (greedy_dispatch gd).2 h2 hok.2
        hlk.2 (by omega)
      exact ⟨m2, h3, h4⟩
    | merged rq next =>
      have h2 := refines_merged m gd rq next hr hlk.1
      have hlen := (queued_merged_sublist gd rq next).length_le
      obtain ⟨m2, h3, h4⟩ := ih (Links.greedy_merged_requests m rq next)
        (greedy_merged_requests gd rq next) h2 hok.2 hlk.2 (by omega)
      exact ⟨m2, h3, h4⟩

/-- Every sequence of calls the host may make runs through on the linked
representation, and the pointers it reaches spell the queues of the list
view. -/
theorem reached_refines (ops : List Op) (hok : okOps greedy_init_queue ops)
    (hlk : okLinks greedy_init_queue ops) :
    ∃ m, reached ops = some m ∧ Refines m (run greedy_init_queue ops) :=
  refines_run (ops.length + 1) ops _ _ refines_init hok hlk (by
    show ([] ++ []  : List Request).length + ops.length < ops.length + 1
    simp)

/-! ## Adds of requests that are not queued -/

theorem run_adds (rqs : List Request) (gd : greedy_data) :
    run gd (rqs.map Op.add) = rqs.foldl greedy_add_request gd := by
  induction rqs generalizing gd with
  | nil => rfl
  | cons r rs ih => exact ih (greedy_add_request gd r)

theorem okOps_adds (rqs : List Request) (gd : greedy_data)
    (hr : ∀ r ∈ rqs, r.pos < SECTOR_MOD) (hid : (rqs.map Request.id).Nodup)
    (hdis : ∀ r ∈ rqs, r.id ∉ (queued gd).map Request.id) :
    okOps gd (rqs.map Op.add) := by
  induction rqs generalizing gd with
  | nil => exact True.intro
  | cons r rs ih =>
    rw [List.map_cons] at hid
    have hn := List.nodup_cons.mp hid
    refine ⟨⟨hr r (List.mem_cons_self _ _), hdis r (List.mem_cons_self _ _)⟩, ?_⟩
    refine ih (greedy_add_request gd r) (fun x hx => hr x (List.mem_cons_of_mem _ hx)) hn.2 ?_
    intro x hx hmem
    have hp := (queued_add_perm gd r).map Request.id
    rw [hp.mem_iff, List.map_cons] at hmem
    rcases List.mem_cons.mp hmem with h | h
    · exact hn.1 (h ▸ List.mem_map_of_mem Request.id hx)
    · exact hdis x (List.mem_cons_of_mem _ hx) h

theorem okLinks_adds (rqs : List Request) (gd : greedy_data) :
    okLinks gd (rqs.map Op.add) := by
  induction rqs generalizing gd with
  | nil => exact True.intro
  | cons r rs ih => exact ⟨True.intro, ih (greedy_add_request gd r)⟩

theorem refines_empty (h : Nat) :
    Refines { Links.greedy_init_queue fresh_mem with head_position := h } ⟨[], [], h⟩ := by
  refine ⟨⟨⟨rfl, rfl⟩, ⟨rfl, rfl⟩, rfl⟩, ?_, ?_⟩
  · intro r _
    exact ⟨rfl, rfl⟩
  · unfold Exclusive queued
    exact List.nodup_nil

/-- Claim C5: for every state and every request that is not queued,
`greedy_add_request` puts the request into the upstream (forward) queue when its
position is above the head and into the downstream (backward) queue otherwise,
equality included; that queue gains exactly this one request and the other
queue is unchanged.  On the linked representation the callback ends with
pointers that spell exactly these queues. -/
theorem add_routes (gd : greedy_data) (rq : Request)
    (hnew : rq.id ∉ (queued gd).map Request.id) :
    (gd.head_position < rq.pos →
      ∃ l1 l2, gd.upstream_queue = l1 ++ l2 ∧
        (greedy_add_request gd rq).upstream_queue = l1 ++ rq :: l2 ∧
        (greedy_add_request gd rq).downstream_queue = gd.downstream_queue) ∧
    (rq.pos ≤ gd.head_position →
      ∃ l1 l2, gd.downstream_queue = l1 ++ l2 ∧
        (greedy_add_request gd rq).downstream_queue = l1 ++ rq :: l2 ∧
        (greedy_add_request gd rq).upstream_queue = gd.upstream_queue) ∧
    (∀ (m : Mem) (fuel : Nat), Refines m gd → (queued gd).length < fuel →
      ∃ m1, Links.greedy_add_request fuel m rq = some m1 ∧
        Refines m1 (greedy_add_request gd rq)) := by
  refine ⟨?_, ?_, fun m fuel hr hf => refines_add fuel m gd rq hr hnew hf⟩
  · intro h
    rw [add_up gd rq h]
    exact ⟨_, _, (List.takeWhile_append_dropWhile _ _).symm,
      list_add_before_split _ rq gd.upstream_queue, rfl⟩
  · intro h
    rw [add_down gd rq h]
    exact ⟨_, _, (List.takeWhile_append_dropWhile _ _).symm,
      list_add_before_split _ rq gd.downstream_queue, rfl⟩

theorem add_routes_witness :
    ((⟨[⟨1, 7⟩], [⟨2, 3⟩], 5⟩ : greedy_data).head_position < (⟨3, 5⟩ : Request).pos →
      ∃ l1 l2, (⟨[⟨1, 7⟩], [⟨2, 3⟩], 5⟩ : greedy_data).upstream_queue = l1 ++ l2 ∧
        (greedy_add_request (⟨[⟨1, 7⟩], [⟨2, 3⟩], 5⟩ : greedy_data) ⟨3, 5⟩).upstream_queue = l1 ++ ⟨3, 5⟩ :: l2 ∧
        (greedy_add_request (⟨[⟨1, 7⟩], [⟨2, 3⟩], 5⟩ : greedy_data) ⟨3, 5⟩).downstream_queue = (⟨[⟨1, 7⟩], [⟨2, 3⟩], 5⟩ : greedy_data).downstream_queue) ∧
    ((⟨3, 5⟩ : Request).pos ≤ (⟨[⟨1, 7⟩], [⟨2, 3⟩], 5⟩ : greedy_data).head_position →
      ∃ l1 l2, (⟨[⟨1, 7⟩], [⟨2, 3⟩], 5⟩ : greedy_data).downstream_queue = l1 ++ l2 ∧
        (greedy_add_request (⟨[⟨1, 7⟩], [⟨2, 3⟩], 5⟩ : greedy_data) ⟨3, 5⟩).downstream_queue = l1 ++ ⟨3, 5⟩ :: l2 ∧
        (greedy_add_request (⟨[⟨1, 7⟩], [⟨2, 3⟩], 5⟩ : greedy_data) ⟨3, 5⟩).upstream_queue = (⟨[⟨1, 7⟩], [⟨2, 3⟩], 5⟩ : greedy_data).upstream_queue) ∧
    (∀ (m : Mem) (fuel : Nat), Refines m (⟨[⟨1, 7⟩], [⟨2, 3⟩], 5⟩ : greedy_data) → (queued (⟨[⟨1, 7⟩], [⟨2, 3⟩], 5⟩ : greedy_data)).length < fuel →
      ∃ m1, Links.greedy_add_request fuel m ⟨3, 5⟩ = some m1 ∧
        Refines m1 (greedy_add_request (⟨[⟨1, 7⟩], [⟨2, 3⟩], 5⟩ : greedy_data) ⟨3, 5⟩)) :=
  add_routes (⟨[⟨1, 7⟩], [⟨2, 3⟩], 5⟩ : greedy_data) ⟨3, 5⟩ (by decide)

/-- Claim C8: starting with both queues empty and any head position `h`, after
any finite sequence of adds of distinct requests with no dispatch in between
the head is still `h` and each queue is non-decreasing in the distance of its
entries from `h`; no request is linked twice, and on the linked representation
the same adds end with pointers that spell exactly these queues. -/
theorem adds_keep_sorted (h : Nat) (hh : h < SECTOR_MOD) (rqs : List Request)
    (hr : ∀ r ∈ rqs, r.pos < SECTOR_MOD) (hid : (rqs.map Request.id).Nodup) :
    (rqs.foldl greedy_add_request ⟨[], [], h⟩).head_position = h ∧
    (rqs.foldl greedy_add_request ⟨[], [], h⟩).upstream_queue.Pairwise
      (fun a b => seek a.pos h ≤ seek b.pos h) ∧
    (rqs.foldl greedy_add_request ⟨[], [], h⟩).downstream_queue.Pairwise
      (fun a b => seek a.pos h ≤ seek b.pos h) ∧
    ((queued (rqs.foldl greedy_add_request ⟨[], [], h⟩)).map Request.id).Nodup ∧
    (∃ m, Links.run (rqs.length + 1)
        { Links.greedy_init_queue fresh_mem with head_position := h } (rqs.map Op.add)
          = some m ∧
      Refines m (rqs.foldl greedy_add_request ⟨[], [], h⟩)) := by
  have ho := ordered_adds rqs ⟨[], [], h⟩ (ordered_init h hh) hr
  have hu := seek_sorted_up _ ho.1
  have hd := seek_sorted_down _ ho.1
  rw [ho.2] at hu hd
  have hok : okOps ⟨[], [], h⟩ (rqs.map Op.add) :=
    okOps_adds rqs _ hr hid (fun r _ hm => by cases hm)
  obtain ⟨m, hm1, hm2⟩ := refines_run (rqs.length + 1) (rqs.map Op.add) _ _
    (refines_empty h) hok (okLinks_adds rqs _) (by
      show ([] ++ [] : List Request).length + (rqs.map Op.add).length < rqs.length + 1
      simp)
  rw [run_adds] at hm2
  exact ⟨ho.2, hu, hd, hm2.excl, m, hm1, hm2⟩

theorem adds_keep_sorted_witness :
    ([⟨1, 150⟩, ⟨2, 120⟩, ⟨3, 80⟩, ⟨4, 50⟩, ⟨5, 120⟩, ⟨6, 100⟩].foldl greedy_add_request ⟨[], [], 100⟩).head_position = 100 ∧
    ([⟨1, 150⟩, ⟨2, 120⟩, ⟨3, 80⟩, ⟨4, 50⟩, ⟨5, 120⟩, ⟨6, 100⟩].foldl greedy_add_request ⟨[], [], 100⟩).upstream_queue.Pairwise (fun a b => seek a.pos 100 ≤ seek b.pos 100) ∧
    ([⟨1, 150⟩, ⟨2, 120⟩, ⟨3, 80⟩, ⟨4, 50⟩, ⟨5, 120⟩, ⟨6, 100⟩].foldl greedy_add_request ⟨[], [], 100⟩).downstream_queue.Pairwise (fun a b => seek a.pos 100 ≤ seek b.pos 100) ∧
    ((queued ([⟨1, 150⟩, ⟨2, 120⟩, ⟨3, 80⟩, ⟨4, 50⟩, ⟨5, 120⟩, ⟨6, 100⟩].foldl greedy_add_request ⟨[], [], 100⟩)).map Request.id).Nodup ∧
    (∃ m, Links.run (([⟨1, 150⟩, ⟨2, 120⟩, ⟨3, 80⟩, ⟨4, 50⟩, ⟨5, 120⟩, ⟨6, 100⟩] : List Request).length + 1)
        { Links.greedy_init_queue fresh_mem with head_position := 100 }
        (([⟨1, 150⟩, ⟨2, 120⟩, ⟨3, 80⟩, ⟨4, 50⟩, ⟨5, 120⟩, ⟨6, 100⟩] : List Request).map Op.add) = some m ∧
      Refines m ([⟨1, 150⟩, ⟨2, 120⟩, ⟨3, 80⟩, ⟨4, 50⟩, ⟨5, 120⟩, ⟨6, 100⟩].foldl greedy_add_request ⟨[], [], 100⟩)) :=
  adds_keep_sorted 100 (by decide) [⟨1, 150⟩, ⟨2, 120⟩, ⟨3, 80⟩, ⟨4, 50⟩, ⟨5, 120⟩, ⟨6, 100⟩] (by decide) (by decide)

end Greedy
